import Mathlib

/-!
# Verification of the Maine state senator scraper

A shallow embedding, in Lean 4, of the pure parsing logic of
`src/main.py` from the `maine_state_senator_data` repository, together
with proofs settling the specification claims about it.

Strings are modelled as `List Char` (`Str` below).  Python regular
expressions are embedded as explicit backtracking searches that follow
the Python `re` engine's order of exploration: greedy repetitions try
the longest extent first, lazy repetitions the shortest, and the first
overall success wins.  Character classes are modelled over ASCII, which
covers every input the program handles.
-/

set_option maxHeartbeats 1000000
set_option linter.unusedVariables false

namespace SenatorData

/-- Strings as lists of characters. -/
abbrev Str := List Char

/-- Turn a Lean string literal into our string model. -/
def lit (s : String) : Str := s.data

/-- Python `\s` (ASCII): the characters treated as whitespace by `re`
and by `str.strip`. -/
def isSpaceChar (c : Char) : Bool :=
  c = ' ' || c = '\t' || c = '\n' || c = '\r' || c = '\x0b' || c = '\x0c'

/-- Python `\d` (ASCII). -/
def isDigitChar (c : Char) : Bool := c.isDigit

/-- Python `.` without `re.DOTALL`: any character except a newline. -/
def isDot (c : Char) : Bool := c ≠ '\n'

/-- Python `\w` (ASCII): letters, digits and underscore. -/
def isWordChar (c : Char) : Bool := c.isAlphanum || c = '_'

/-- The character class `[\W\w\s()-]` of the senator pattern.  Since it
contains both `\w` and `\W` it accepts every character. -/
def inTownClass (c : Char) : Bool :=
  isWordChar c || !isWordChar c || isSpaceChar c || c = '(' || c = ')' || c = '-'

theorem inTownClass_true (c : Char) : inTownClass c = true := by
  unfold inTownClass
  cases h : isWordChar c <;> simp [h]

/-- `isPrefOf pat l` holds when `pat` is an initial segment of `l`. -/
def isPrefOf : Str → Str → Bool
  | [], _ => true
  | _ :: _, [] => false
  | a :: as, b :: bs => a = b && isPrefOf as bs

/-- Python's substring containment `pat in hay`. -/
def containsSub (hay pat : Str) : Bool :=
  isPrefOf pat hay ||
    match hay with
    | [] => false
    | _ :: t => containsSub t pat

/-- Python `str.strip()`: drop whitespace from both ends. -/
def stripChars (l : Str) : Str :=
  ((l.dropWhile isSpaceChar).reverse.dropWhile isSpaceChar).reverse

/-- Length of the leading run of characters satisfying `p`. -/
def runLen (p : Char → Bool) (l : Str) : Nat := (l.takeWhile p).length

/-- Length of the leading whitespace run (extent available to `\s*`). -/
def wsRun (l : Str) : Nat := runLen isSpaceChar l

/-- Length of the leading digit run (extent available to `\d+`). -/
def digitRun (l : Str) : Nat := runLen isDigitChar l

/-- First success of `f` over a list of candidate indices, mirroring
the order in which a backtracking regex engine explores alternatives. -/
def firstSome {α : Type} : List Nat → (Nat → Option α) → Option α
  | [], _ => none
  | i :: is, f =>
    match f i with
    | some a => some a
    | none => firstSome is f

/-- `descGo n h = [h, h-1, ..., h-n+1]`. -/
def descGo : Nat → Nat → List Nat
  | 0, _ => []
  | n + 1, h => h :: descGo n (h - 1)

/-- `[hi, hi-1, ..., lo]`: candidate extents of a greedy repetition,
longest first. -/
def descList (lo hi : Nat) : List Nat := descGo (hi + 1 - lo) hi

/-- `ascGo n l = [l, l+1, ..., l+n-1]`. -/
def ascGo : Nat → Nat → List Nat
  | 0, _ => []
  | n + 1, l => l :: ascGo n (l + 1)

/-- `[lo, lo+1, ..., hi]`: candidate extents of a lazy repetition,
shortest first. -/
def ascList (lo hi : Nat) : List Nat := ascGo (hi + 1 - lo) lo

/-- Match a literal: `dropLit pat l` returns the remainder of `l` after
`pat`, when `pat` is an initial segment of `l`. -/
def dropLit : Str → Str → Option Str
  | [], l => some l
  | _ :: _, [] => none
  | a :: as, b :: bs => if b = a then dropLit as bs else none

/-- `re.sub(r"[\r\n]", " ", ·)` of `extract_senator_from_string`. -/
def newlineToSpace (c : Char) : Char :=
  if c = '\r' || c = '\n' then ' ' else c

/-- `re.sub(r"\s+", " ", ·)` of `extract_senator_from_string`: collapse
every maximal whitespace run to a single space. -/
def collapseWs : Str → Str
  | [] => []
  | [c] => if isSpaceChar c then [' '] else [c]
  | c :: d :: rest =>
    if isSpaceChar c then
      if isSpaceChar d then collapseWs (d :: rest)
      else ' ' :: collapseWs (d :: rest)
    else c :: collapseWs (d :: rest)

/-- The literal `Senate District` of the senator pattern. -/
def sdLit : Str := lit "Senate District"

/-- Match a single literal character, returning the remainder. -/
def headIs (c : Char) : Str → Option Str
  | [] => none
  | x :: rest => if x = c then some rest else none

/-- The sub-pattern `(.+?)-`: a lazy capture of one or more non-newline
characters followed by a literal hyphen.  Returns the capture and the
remainder after the hyphen.  Embeds the party capture of the pattern
`([\W\w\s()-]+)\s*-\s*Senate District\s+(\d+)\s*-\s*(.+?)\s*\((.+?)-`. -/
def matchLazyToHyphen (cs : Str) : Option (Str × Str) :=
  firstSome (ascList 1 cs.length) fun i =>
    let g := cs.take i
    if g.all isDot then (headIs '-' (cs.drop i)).map (fun rest => (g, rest))
    else none

/-- The sub-pattern `(.+?)\s*\((.+?)-`: the lazy member capture, then
optional whitespace, a literal `(`, and the party capture. -/
def matchMemberParty (cs : Str) : Option (Str × Str) :=
  firstSome (ascList 1 cs.length) fun i =>
    let m := cs.take i
    if m.all isDot then
      let rest := cs.drop i
      firstSome (descList 0 (wsRun rest)) fun j =>
        (headIs '(' (rest.drop j)).bind fun rest2 =>
          (matchLazyToHyphen rest2).map (fun pr => (m, pr.1))
    else none

/-- The sub-pattern `\s+(\d+)\s*-\s*(.+?)\s*\((.+?)-`: what follows the
literal `Senate District`.  Returns (district, member, party). -/
def matchDistrictTail (cs : Str) : Option (Str × Str × Str) :=
  firstSome (descList 1 (wsRun cs)) fun i =>
    let rest := cs.drop i
    firstSome (descList 1 (digitRun rest)) fun j =>
      let d := rest.take j
      let rest2 := rest.drop j
      firstSome (descList 0 (wsRun rest2)) fun k =>
        (headIs '-' (rest2.drop k)).bind fun rest3 =>
          firstSome (descList 0 (wsRun rest3)) fun l =>
            (matchMemberParty (rest3.drop l)).map (fun mp => (d, mp.1, mp.2))

/-- `re.match(r"([\W\w\s()-]+)\s*-\s*Senate District\s+(\d+)\s*-\s*(.+?)\s*\((.+?)-", ·)`
with Python's backtracking order.  Returns the captures
(town, district, member, party). -/
def matchSenatorPattern (cs : Str) : Option (Str × Str × Str × Str) :=
  firstSome (descList 1 cs.length) fun i =>
    let t := cs.take i
    if t.all inTownClass then
      let rest := cs.drop i
      firstSome (descList 0 (wsRun rest)) fun j =>
        (headIs '-' (rest.drop j)).bind fun rest2 =>
          firstSome (descList 0 (wsRun rest2)) fun k =>
            (dropLit sdLit (rest2.drop k)).bind fun rest3 =>
              (matchDistrictTail rest3).map (fun x => (t, x.1, x.2.1, x.2.2))
    else none

/-- `extract_senator_from_string` of `src/main.py`: returns the tuple
(district, town, member, party), all empty when the literal
`Senate District` is absent or the full pattern does not match. -/
def extract_senator_from_string (text : Str) : Str × Str × Str × Str :=
  if containsSub text sdLit then
    let formatted := collapseWs (text.map newlineToSpace)
    match matchSenatorPattern formatted with
    | some (t, d, m, p) => (stripChars d, stripChars t, stripChars m, stripChars p)
    | none => ([], [], [], [])
  else ([], [], [], [])

/-! ## Lemmas about the backtracking search combinators -/

theorem firstSome_some {α : Type} {l : List Nat} {f : Nat → Option α} {a : α}
    (h : firstSome l f = some a) : ∃ i ∈ l, f i = some a := by
  induction l with
  | nil => simp [firstSome] at h
  | cons i is ih =>
    by_cases hi : ∃ b, f i = some b
    · obtain ⟨b, hb⟩ := hi
      refine ⟨i, by simp, ?_⟩
      simpa [firstSome, hb] using h
    · push_neg at hi
      have hnone : f i = none := by
        cases hfi : f i with
        | none => rfl
        | some b => exact absurd hfi (hi b)
      simp only [firstSome, hnone] at h
      obtain ⟨j, hj, hfj⟩ := ih h
      exact ⟨j, by simp [hj], hfj⟩

theorem mem_descGo {i n h : Nat} (hm : i ∈ descGo n h) : i ≤ h ∧ h < i + n := by
  induction n generalizing h with
  | zero => simp [descGo] at hm
  | succ n ih =>
    simp only [descGo, List.mem_cons] at hm
    rcases hm with rfl | hm
    · omega
    · have := ih hm
      omega

theorem mem_descList {i lo hi : Nat} (hm : i ∈ descList lo hi) :
    lo ≤ i ∧ i ≤ hi := by
  have := mem_descGo (n := hi + 1 - lo) (h := hi) hm
  omega

theorem mem_ascGo {i n l : Nat} (hm : i ∈ ascGo n l) : l ≤ i ∧ i < l + n := by
  induction n generalizing l with
  | zero => simp [ascGo] at hm
  | succ n ih =>
    simp only [ascGo, List.mem_cons] at hm
    rcases hm with rfl | hm
    · omega
    · have := ih hm
      omega

theorem mem_ascList {i lo hi : Nat} (hm : i ∈ ascList lo hi) :
    lo ≤ i ∧ i ≤ hi := by
  have := mem_ascGo (n := hi + 1 - lo) (l := lo) hm
  omega

theorem firstSome_descGo_skip {α : Type} {f : Nat → Option α} {P hi : Nat}
    (hfail : ∀ i, P < i → i ≤ hi → f i = none) :
    ∀ n h, P ≤ h → h ≤ hi →
      firstSome (descGo n h) f = firstSome (descGo (n - (h - P)) P) f := by
  intro n
  induction n with
  | zero => intro h _ _; simp [descGo]
  | succ n ih =>
    intro h hP hhi
    rcases Nat.eq_or_lt_of_le hP with rfl | hlt
    · simp
    · have hnone : f h = none := hfail h hlt hhi
      have heq : n + 1 - (h - P) = n - (h - 1 - P) := by omega
      simp only [descGo, firstSome, hnone, heq]
      exact ih (h - 1) (by omega) (by omega)

theorem firstSome_descList_eval {α : Type} {f : Nat → Option α} {lo hi P : Nat}
    {a : α} (hlo : lo ≤ P) (hhi : P ≤ hi) (hP : f P = some a)
    (hfail : ∀ i, P < i → i ≤ hi → f i = none) :
    firstSome (descList lo hi) f = some a := by
  unfold descList
  rw [firstSome_descGo_skip hfail (hi + 1 - lo) hi hhi (le_refl hi)]
  have hm : ∃ k, (hi + 1 - lo) - (hi - P) = k + 1 := ⟨hi + 1 - lo - (hi - P) - 1, by omega⟩
  obtain ⟨k, hk⟩ := hm
  rw [hk]
  simp [descGo, firstSome, hP]

theorem firstSome_ascGo_skip {α : Type} {f : Nat → Option α} {P lo : Nat}
    (hfail : ∀ i, lo ≤ i → i < P → f i = none) :
    ∀ n l, lo ≤ l → l ≤ P →
      firstSome (ascGo n l) f = firstSome (ascGo (n - (P - l)) P) f := by
  intro n
  induction n with
  | zero => intro l _ _; simp [ascGo]
  | succ n ih =>
    intro l hlo hP
    rcases Nat.eq_or_lt_of_le hP with rfl | hlt
    · simp
    · have hnone : f l = none := hfail l hlo hlt
      have heq : n + 1 - (P - l) = n - (P - (l + 1)) := by omega
      simp only [ascGo, firstSome, hnone, heq]
      exact ih (l + 1) (by omega) (by omega)

theorem firstSome_ascList_eval {α : Type} {f : Nat → Option α} {lo hi P : Nat}
    {a : α} (hlo : lo ≤ P) (hhi : P ≤ hi) (hP : f P = some a)
    (hfail : ∀ i, lo ≤ i → i < P → f i = none) :
    firstSome (ascList lo hi) f = some a := by
  unfold ascList
  rw [firstSome_ascGo_skip hfail (hi + 1 - lo) lo (le_refl lo) hlo]
  have hm : ∃ k, (hi + 1 - lo) - (P - lo) = k + 1 := ⟨hi + 1 - lo - (P - lo) - 1, by omega⟩
  obtain ⟨k, hk⟩ := hm
  rw [hk]
  simp [ascGo, firstSome, hP]

/-! ## Lemmas about literals, containment and stripping -/

theorem dropLit_eq_some {p l r : Str} : dropLit p l = some r ↔ l = p ++ r := by
  induction p generalizing l with
  | nil => simp [dropLit]
  | cons a as ih =>
    cases l with
    | nil => simp [dropLit]
    | cons b bs =>
      by_cases hb : b = a
      · subst hb
        simp [dropLit, ih]
      · simp [dropLit, hb, Ne.symm hb]

theorem containsSub_iff {l p : Str} :
    containsSub l p = true ↔ ∃ q, isPrefOf p (l.drop q) = true := by
  induction l with
  | nil =>
    constructor
    · intro h
      exact ⟨0, by simpa [containsSub] using h⟩
    · rintro ⟨q, hq⟩
      simpa [containsSub] using hq
  | cons c t ih =>
    constructor
    · intro h
      rcases Bool.or_eq_true_iff.mp (by simpa [containsSub] using h) with h1 | h2
      · exact ⟨0, by simpa using h1⟩
      · obtain ⟨q, hq⟩ := ih.mp h2
        exact ⟨q + 1, by simpa using hq⟩
    · rintro ⟨q, hq⟩
      cases q with
      | zero =>
        simp only [List.drop_zero] at hq
        simp [containsSub, hq]
      | succ q =>
        simp only [List.drop_succ_cons] at hq
        have := ih.mpr ⟨q, hq⟩
        simp [containsSub, this]

theorem isPrefOf_append (p r : Str) : isPrefOf p (p ++ r) = true := by
  induction p with
  | nil => simp [isPrefOf]
  | cons a as ih => simp [isPrefOf, ih]

theorem containsSub_of_drop_eq {l p r : Str} {q : Nat}
    (hq : l.drop q = p ++ r) : containsSub l p = true := by
  refine containsSub_iff.mpr ⟨q, ?_⟩
  rw [hq]
  exact isPrefOf_append p r

theorem stripChars_nil : stripChars [] = [] := rfl

theorem dropWhile_eq_self_of_head {p : Char → Bool} {c : Char} {t : Str}
    (h : p c = false) : List.dropWhile p (c :: t) = c :: t := by
  simp [List.dropWhile_cons, h]

theorem stripChars_all_false {l : Str}
    (h : ∀ c ∈ l, isSpaceChar c = false) : stripChars l = l := by
  unfold stripChars
  have h1 : List.dropWhile isSpaceChar l = l := by
    cases l with
    | nil => rfl
    | cons c t => exact dropWhile_eq_self_of_head (h c (by simp))
  rw [h1]
  have h2 : List.dropWhile isSpaceChar l.reverse = l.reverse := by
    cases hr : l.reverse with
    | nil => rfl
    | cons c t =>
      refine dropWhile_eq_self_of_head (h c ?_)
      have : c ∈ l.reverse := by rw [hr]; simp
      simpa using this
  rw [h2, List.reverse_reverse]

theorem dropWhile_append_split (p : Char → Bool) (l₁ l₂ : Str) :
    List.dropWhile p (l₁ ++ l₂) =
      if List.dropWhile p l₁ = [] then List.dropWhile p l₂
      else List.dropWhile p l₁ ++ l₂ := by
  induction l₁ with
  | nil => simp
  | cons c t ih =>
    by_cases hc : p c
    · simpa [List.dropWhile_cons, hc] using ih
    · simp [List.dropWhile_cons, hc]

theorem stripChars_append_space {l : Str} {g : Bool} :
    stripChars (l ++ (if g then [' '] else [])) = stripChars l := by
  have hsp : isSpaceChar ' ' = true := by decide
  cases g
  · simp
  · show stripChars (l ++ [' ']) = stripChars l
    unfold stripChars
    rw [dropWhile_append_split]
    by_cases he : List.dropWhile isSpaceChar l = []
    · rw [if_pos he, he]
      simp [List.dropWhile_cons, hsp]
    · rw [if_neg he, List.reverse_append]
      simp only [List.reverse_cons, List.reverse_nil, List.nil_append,
        List.singleton_append]
      rw [List.dropWhile_cons]
      simp [hsp]

theorem firstSome_eq_none {α : Type} {l : List Nat} {f : Nat → Option α}
    (h : ∀ i ∈ l, f i = none) : firstSome l f = none := by
  induction l with
  | nil => rfl
  | cons i is ih =>
    have hi : f i = none := h i (by simp)
    simp only [firstSome, hi]
    exact ih fun j hj => h j (by simp [hj])

theorem headIs_eq_some {c : Char} {l r : Str} :
    headIs c l = some r ↔ l = c :: r := by
  cases l with
  | nil => simp [headIs]
  | cons x t =>
    by_cases hx : x = c
    · subst hx; simp [headIs]
    · simp [headIs, hx, Ne.symm hx]

theorem headIs_cons_ne {c x : Char} {r : Str} (h : x ≠ c) :
    headIs c (x :: r) = none := by simp [headIs, h]

theorem runLen_le_length (p : Char → Bool) (l : Str) : runLen p l ≤ l.length :=
  (List.takeWhile_sublist p).length_le

theorem runLen_cons_true {p : Char → Bool} {c : Char} (h : p c = true) (l : Str) :
    runLen p (c :: l) = runLen p l + 1 := by
  simp [runLen, List.takeWhile_cons, h]

theorem runLen_cons_false {p : Char → Bool} {c : Char} (h : p c = false) (l : Str) :
    runLen p (c :: l) = 0 := by
  simp [runLen, List.takeWhile_cons, h]

theorem runLen_append_all {p : Char → Bool} {l : Str} (x : Str)
    (h : l.all p = true) : runLen p (l ++ x) = l.length + runLen p x := by
  induction l with
  | nil => simp
  | cons c t ih =>
    simp only [List.all_cons, Bool.and_eq_true] at h
    rw [List.cons_append, runLen_cons_true h.1, ih h.2]
    simp only [List.length_cons]
    omega

/-- If `l` contains a character violating `p`, the `p`-run of `l ++ x`
stays inside `l`. -/
theorem runLen_append_of_lt {p : Char → Bool} {l : Str} (x : Str)
    (h : runLen p l < l.length) : runLen p (l ++ x) = runLen p l := by
  induction l with
  | nil => simp [runLen] at h
  | cons c t ih =>
    by_cases hc : p c
    · rw [runLen_cons_true hc, List.length_cons] at h
      rw [List.cons_append, runLen_cons_true hc, runLen_cons_true hc,
        ih (by omega)]
    · rw [List.cons_append, runLen_cons_false (Bool.eq_false_iff.mpr hc),
        runLen_cons_false (Bool.eq_false_iff.mpr hc)]

theorem all_take {p : Char → Bool} {l : Str} (h : l.all p = true) (i : Nat) :
    (l.take i).all p = true := by
  rw [List.all_eq_true] at h ⊢
  intro c hc
  exact h c (List.mem_of_mem_take hc)

theorem all_inTownClass (l : Str) : l.all inTownClass = true := by
  rw [List.all_eq_true]
  intro c _
  exact inTownClass_true c

/-- The `p`-run of a list whose last character violates `p` is shorter
than the list. -/
theorem runLen_lt_of_last {p : Char → Bool} {l : Str} (hne : l ≠ [])
    (h : p (l.getLast hne) = false) : runLen p l < l.length := by
  induction l with
  | nil => exact absurd rfl hne
  | cons c t ih =>
    cases t with
    | nil =>
      simp only [List.getLast_singleton] at h
      rw [runLen_cons_false h]
      simp
    | cons c' t' =>
      have hlast : (c :: c' :: t').getLast (by simp) = (c' :: t').getLast (by simp) :=
        List.getLast_cons (by simp)
      rw [hlast] at h
      by_cases hc : p c
      · rw [runLen_cons_true hc]
        simp only [List.length_cons]
        have := ih (by simp) h
        simp only [List.length_cons] at this
        omega
      · rw [runLen_cons_false (Bool.eq_false_iff.mpr hc)]
        simp

theorem not_space_of_digit {c : Char} (h : isDigitChar c = true) :
    isSpaceChar c = false := by
  by_contra hsp
  rw [Bool.not_eq_false] at hsp
  simp only [isSpaceChar, Bool.or_eq_true, decide_eq_true_eq] at hsp
  rcases hsp with ((((rfl | rfl) | rfl) | rfl) | rfl) | rfl <;>
    exact absurd h (by decide)

theorem stripChars_space_append {l : Str} {g : Bool} :
    stripChars ((if g then [' '] else []) ++ l) = stripChars l := by
  have hsp : isSpaceChar ' ' = true := by decide
  cases g
  · simp
  · show stripChars (' ' :: l) = stripChars l
    unfold stripChars
    rw [List.dropWhile_cons]
    simp [hsp]

/-! ## Evaluation of the senator pattern on well-formed inputs -/

/-- An optional single space, as left by whitespace collapapsing around
a separator. -/
def spIf (g : Bool) : Str := if g then [' '] else []

theorem head_false_of_takeWhile_nil {p : Char → Bool} {xs : Str}
    (htw : List.takeWhile p xs = []) (hne : xs ≠ []) :
    p (xs.head hne) = false := by
  cases xs with
  | nil => exact absurd rfl hne
  | cons c t =>
    rw [List.takeWhile_cons] at htw
    rw [List.head_cons]
    by_cases hc : p c = true
    · rw [if_pos hc] at htw
      exact absurd htw (by simp)
    · simpa using hc

theorem stripChars_append_spIf {l : Str} {g : Bool} :
    stripChars (l ++ spIf g) = stripChars l := stripChars_append_space

theorem strip_eq_self_parts {l : Str} (hs : stripChars l = l) :
    List.takeWhile isSpaceChar l = [] ∧
      List.takeWhile isSpaceChar l.reverse = [] := by
  have hlen : (stripChars l).length = l.length := by rw [hs]
  unfold stripChars at hlen
  rw [List.length_reverse] at hlen
  have h1 : (List.dropWhile isSpaceChar (List.dropWhile isSpaceChar l).reverse).length ≤
      ((List.dropWhile isSpaceChar l).reverse).length :=
    (List.dropWhile_sublist _).length_le
  rw [List.length_reverse] at h1
  have h2 : (List.dropWhile isSpaceChar l).length ≤ l.length :=
    (List.dropWhile_sublist _).length_le
  have hsplit := congrArg List.length (List.takeWhile_append_dropWhile isSpaceChar l)
  rw [List.length_append] at hsplit
  have htw : List.takeWhile isSpaceChar l = [] :=
    List.length_eq_zero.mp (by omega)
  refine ⟨htw, ?_⟩
  have hA : List.dropWhile isSpaceChar l = l := by
    have h3 := List.takeWhile_append_dropWhile isSpaceChar l
    rwa [htw, List.nil_append] at h3
  rw [hA] at hlen
  have hsplit2 := congrArg List.length
    (List.takeWhile_append_dropWhile isSpaceChar l.reverse)
  rw [List.length_append, List.length_reverse] at hsplit2
  exact List.length_eq_zero.mp (by omega)

theorem head_not_space_of_strip {l : Str} (hs : stripChars l = l) {c : Char}
    {t : Str} (hl : l = c :: t) : isSpaceChar c = false := by
  have htw := (strip_eq_self_parts hs).1
  rw [hl, List.takeWhile_cons] at htw
  by_cases hc : isSpaceChar c = true
  · rw [if_pos hc] at htw
    exact absurd htw (by simp)
  · exact Bool.eq_false_iff.mpr (by simpa using hc)

theorem last_not_space_of_strip {l : Str} (hs : stripChars l = l)
    (h : l ≠ []) : isSpaceChar (l.getLast h) = false := by
  have htw := (strip_eq_self_parts hs).2
  rw [List.getLast_eq_head_reverse]
  exact head_false_of_takeWhile_nil htw (by simpa using h)

theorem runLen_drop_lt {p : Char → Bool} {l : Str} {i : Nat} (hi : i < l.length)
    (hlast : ∀ (h : l ≠ []), p (l.getLast h) = false) :
    runLen p (l.drop i) < (l.drop i).length := by
  induction i generalizing l with
  | zero =>
    have hne : l ≠ [] := List.length_pos.mp (by omega)
    simpa using runLen_lt_of_last hne (hlast hne)
  | succ i ih =>
    cases l with
    | nil => simp at hi
    | cons c t =>
      have htne : t ≠ [] := by
        have : i < t.length := by simpa using hi
        exact List.length_pos.mp (by omega)
      have hlast' : ∀ (h : t ≠ []), p (t.getLast h) = false := by
        intro h
        have := hlast (by simp)
        rwa [List.getLast_cons h] at this
      simpa using ih (by simpa using hi) hlast'

theorem headIs_same (c : Char) (r : Str) : headIs c (c :: r) = some r := by
  simp [headIs]

theorem matchLazyToHyphen_eval {party county : Str}
    (hne : party ≠ []) (hdot : party.all isDot = true)
    (hnh : ∀ c ∈ party, c ≠ '-') :
    matchLazyToHyphen (party ++ '-' :: county) = some (party, county) := by
  unfold matchLazyToHyphen
  have hplen : 1 ≤ party.length := List.length_pos.mpr hne
  apply firstSome_ascList_eval (P := party.length)
  · exact hplen
  · rw [List.length_append]
    simp
  · simp only [List.take_left, List.drop_left, hdot, if_true, headIs_same]
    rfl
  · intro i h1 hi
    have htake : (party ++ '-' :: county).take i = party.take i :=
      List.take_append_of_le_length (by omega)
    have hdrop : (party ++ '-' :: county).drop i = party.drop i ++ '-' :: county :=
      List.drop_append_of_le_length (by omega)
    have hdropeq : party.drop i = party[i] :: party.drop (i + 1) :=
      List.drop_eq_getElem_cons hi
    have hnec : party[i] ≠ '-' := hnh _ (List.getElem_mem hi)
    simp only [htake, hdrop, hdropeq, List.cons_append, all_take hdot, if_true,
      headIs_cons_ne hnec]
    rfl

theorem matchMemberParty_eval {member party county : Str} {g5 : Bool}
    (hmne : member ≠ []) (hmdot : member.all isDot = true)
    (hmnp : ∀ c ∈ member, c ≠ '(')
    (hmlast : ∀ (h : member ≠ []), isSpaceChar (member.getLast h) = false)
    (hpne : party ≠ []) (hpdot : party.all isDot = true)
    (hpnh : ∀ c ∈ party, c ≠ '-') :
    matchMemberParty (member ++ (spIf g5 ++ ('(' :: (party ++ '-' :: county)))) =
      some (member, party) := by
  unfold matchMemberParty
  have hmlen : 1 ≤ member.length := List.length_pos.mpr hmne
  apply firstSome_ascList_eval (P := member.length)
  · exact hmlen
  · rw [List.length_append]
    omega
  · simp only [List.take_left, List.drop_left, hmdot, if_true]
    have hws : wsRun (spIf g5 ++ ('(' :: (party ++ '-' :: county))) =
        if g5 then 1 else 0 := by
      cases g5 <;>
        simp [spIf, wsRun, runLen, List.takeWhile_cons, isSpaceChar]
    rw [hws]
    apply firstSome_descList_eval (P := if g5 then 1 else 0)
    · exact Nat.zero_le _
    · exact le_refl _
    · have hdrop : (spIf g5 ++ ('(' :: (party ++ '-' :: county))).drop
          (if g5 then 1 else 0) = '(' :: (party ++ '-' :: county) := by
        cases g5 <;> simp [spIf]
      rw [hdrop, headIs_same]
      simp only [Option.some_bind]
      rw [matchLazyToHyphen_eval hpne hpdot hpnh]
      rfl
    · intro i hlt hle
      omega
  · intro i h1 hi
    have htake : ((member ++ (spIf g5 ++ ('(' :: (party ++ '-' :: county))))).take i =
        member.take i := List.take_append_of_le_length (by omega)
    have hdrop : ((member ++ (spIf g5 ++ ('(' :: (party ++ '-' :: county))))).drop i =
        member.drop i ++ (spIf g5 ++ ('(' :: (party ++ '-' :: county))) :=
      List.drop_append_of_le_length (by omega)
    simp only [htake, hdrop, all_take hmdot, if_true]
    apply firstSome_eq_none
    intro j hj
    have hjW := mem_descList hj
    have hrun : runLen isSpaceChar (member.drop i) < (member.drop i).length :=
      runLen_drop_lt hi hmlast
    have hW : wsRun (member.drop i ++ (spIf g5 ++ ('(' :: (party ++ '-' :: county)))) =
        runLen isSpaceChar (member.drop i) := runLen_append_of_lt _ hrun
    rw [hW] at hjW
    have hjlt : j < (member.drop i).length := by omega
    have hdropj : (member.drop i ++ (spIf g5 ++ ('(' :: (party ++ '-' :: county)))).drop j =
        (member.drop i).drop j ++ (spIf g5 ++ ('(' :: (party ++ '-' :: county))) :=
      List.drop_append_of_le_length (by omega)
    have hdropeq : (member.drop i).drop j =
        (member.drop i)[j] :: (member.drop i).drop (j + 1) :=
      List.drop_eq_getElem_cons hjlt
    have hmem : (member.drop i)[j] ∈ member :=
      List.drop_subset i member (List.getElem_mem hjlt)
    have hnec : (member.drop i)[j] ≠ '(' := hmnp _ hmem
    simp only [hdropj, hdropeq, List.cons_append, headIs_cons_ne hnec,
      Option.none_bind]

theorem matchDistrictTail_eval {d member party county : Str} {g3 g4 g5 : Bool}
    (hdne : d ≠ []) (hdig : d.all isDigitChar = true)
    (hmne : member ≠ []) (hmdot : member.all isDot = true)
    (hmnp : ∀ c ∈ member, c ≠ '(')
    (hmhead : ∀ c t, member = c :: t → isSpaceChar c = false)
    (hmlast : ∀ (h : member ≠ []), isSpaceChar (member.getLast h) = false)
    (hpne : party ≠ []) (hpdot : party.all isDot = true)
    (hpnh : ∀ c ∈ party, c ≠ '-') :
    matchDistrictTail (' ' :: (d ++ (spIf g3 ++ ('-' :: (spIf g4 ++
        (member ++ (spIf g5 ++ ('(' :: (party ++ '-' :: county))))))))) =
      some (d, member, party) := by
  obtain ⟨d0, d', rfl⟩ := List.exists_cons_of_ne_nil hdne
  have hd0 : isDigitChar d0 = true := by
    have h := hdig
    simp only [List.all_cons, Bool.and_eq_true] at h
    exact h.1
  obtain ⟨m0, m', hm⟩ := List.exists_cons_of_ne_nil hmne
  have hm0 : isSpaceChar m0 = false := hmhead m0 m' hm
  unfold matchDistrictTail
  have hws1 : wsRun (' ' :: ((d0 :: d') ++ (spIf g3 ++ ('-' :: (spIf g4 ++
      (member ++ (spIf g5 ++ ('(' :: (party ++ '-' :: county))))))))) = 1 := by
    rw [wsRun, runLen_cons_true (by decide), List.cons_append,
      runLen_cons_false (not_space_of_digit hd0)]
  rw [hws1]
  apply firstSome_descList_eval (P := 1)
  · exact le_refl 1
  · exact le_refl 1
  · have hdrop1 : (' ' :: ((d0 :: d') ++ (spIf g3 ++ ('-' :: (spIf g4 ++
        (member ++ (spIf g5 ++ ('(' :: (party ++ '-' :: county))))))))).drop 1 =
        (d0 :: d') ++ (spIf g3 ++ ('-' :: (spIf g4 ++
          (member ++ (spIf g5 ++ ('(' :: (party ++ '-' :: county))))))) := by
      simp
    simp only [hdrop1]
    have hdr : digitRun ((d0 :: d') ++ (spIf g3 ++ ('-' :: (spIf g4 ++
        (member ++ (spIf g5 ++ ('(' :: (party ++ '-' :: county)))))))) =
        (d0 :: d').length := by
      rw [digitRun, runLen_append_all _ hdig]
      have hz : runLen isDigitChar (spIf g3 ++ ('-' :: (spIf g4 ++
          (member ++ (spIf g5 ++ ('(' :: (party ++ '-' :: county))))))) = 0 := by
        cases g3 <;>
          simp [spIf, runLen, List.takeWhile_cons, isDigitChar, Char.isDigit]
      rw [hz]
      omega
    rw [hdr]
    apply firstSome_descList_eval (P := (d0 :: d').length)
    · simp
    · exact le_refl _
    · simp only [List.take_left, List.drop_left]
      have hws2 : wsRun (spIf g3 ++ ('-' :: (spIf g4 ++
          (member ++ (spIf g5 ++ ('(' :: (party ++ '-' :: county))))))) =
          if g3 then 1 else 0 := by
        cases g3 <;>
          simp [spIf, wsRun, runLen, List.takeWhile_cons, isSpaceChar]
      rw [hws2]
      apply firstSome_descList_eval (P := if g3 then 1 else 0)
      · exact Nat.zero_le _
      · exact le_refl _
      · have hdropk : (spIf g3 ++ ('-' :: (spIf g4 ++
            (member ++ (spIf g5 ++ ('(' :: (party ++ '-' :: county))))))).drop
            (if g3 then 1 else 0) =
            '-' :: (spIf g4 ++ (member ++ (spIf g5 ++ ('(' :: (party ++ '-' :: county))))) := by
          cases g3 <;> simp [spIf]
        rw [hdropk, headIs_same]
        simp only [Option.some_bind]
        have hws3 : wsRun (spIf g4 ++ (member ++ (spIf g5 ++
            ('(' :: (party ++ '-' :: county))))) = if g4 then 1 else 0 := by
          subst hm
          have hm0' := hm0
          simp only [isSpaceChar, Bool.or_eq_false_iff,
            decide_eq_false_iff_not] at hm0'
          cases g4 <;>
            simp [spIf, wsRun, runLen, List.takeWhile_cons, isSpaceChar, hm0']
        rw [hws3]
        apply firstSome_descList_eval (P := if g4 then 1 else 0)
        · exact Nat.zero_le _
        · exact le_refl _
        · have hdropl : (spIf g4 ++ (member ++ (spIf g5 ++
              ('(' :: (party ++ '-' :: county))))).drop (if g4 then 1 else 0) =
              member ++ (spIf g5 ++ ('(' :: (party ++ '-' :: county))) := by
            cases g4 <;> simp [spIf]
          rw [hdropl,
            matchMemberParty_eval hmne hmdot hmnp hmlast hpne hpdot hpnh]
          rfl
        · intro i hlt hle
          omega
      · intro i hlt hle
        omega
    · intro i hlt hle
      omega
  · intro i hlt hle
    omega

theorem sdLit_cons : sdLit = 'S' :: lit "enate District" := rfl

theorem firstSome_single {α : Type} (f : Nat → Option α) :
    firstSome (descList 0 0) f = f 0 := by
  show firstSome (descGo 1 0) f = f 0
  cases h : f 0 <;> simp [descGo, firstSome, h]

/-- Evaluation of the full senator pattern on a string of the canonical
shape, generic in everything after the literal `Senate District`: the
greedy town capture settles on the last hyphen preceding the (unique)
occurrence of the literal. -/
theorem matchSenatorPattern_eval_gen {town tail1 : Str} {g1 g2 : Bool}
    {res : Str × Str × Str} (htne : town ≠ [])
    (htail : matchDistrictTail (' ' :: tail1) = some res)
    (hone : containsSub (lit "enate District" ++ (' ' :: tail1)) sdLit = false) :
    matchSenatorPattern ((town ++ spIf g1) ++
        ('-' :: (spIf g2 ++ (sdLit ++ (' ' :: tail1))))) =
      some (town ++ spIf g1, res.1, res.2.1, res.2.2) := by
  have hpre1 : 1 ≤ (town ++ spIf g1).length := by
    rw [List.length_append]
    have := List.length_pos.mpr htne
    omega
  unfold matchSenatorPattern
  apply firstSome_descList_eval (P := (town ++ spIf g1).length)
  · exact hpre1
  · simp only [List.length_append]
    omega
  · -- success at the canonical split
    simp only [List.take_left, List.drop_left, all_inTownClass, if_true]
    rw [show wsRun ('-' :: (spIf g2 ++ (sdLit ++ (' ' :: tail1)))) = 0 from
      runLen_cons_false (by decide) _]
    rw [firstSome_single]
    simp only [List.drop_zero, headIs_same, Option.some_bind]
    have hws2 : wsRun (spIf g2 ++ (sdLit ++ (' ' :: tail1))) =
        if g2 then 1 else 0 := by
      cases g2 <;>
        simp [spIf, wsRun, runLen, List.takeWhile_cons, sdLit_cons, isSpaceChar]
    rw [hws2]
    apply firstSome_descList_eval (P := if g2 then 1 else 0)
    · exact Nat.zero_le _
    · exact le_refl _
    · have hdropk : (spIf g2 ++ (sdLit ++ (' ' :: tail1))).drop
          (if g2 then 1 else 0) = sdLit ++ (' ' :: tail1) := by
        cases g2 <;> simp [spIf]
      rw [hdropk, dropLit_eq_some.mpr rfl]
      simp only [Option.some_bind]
      rw [htail]
      rfl
    · intro i hlt hle
      omega
  · -- failure above the canonical split
    intro i hPi hile
    simp only [all_inTownClass, if_true]
    apply firstSome_eq_none
    intro j _
    cases hh : headIs '-'
        ((((town ++ spIf g1) ++ ('-' :: (spIf g2 ++ (sdLit ++ (' ' :: tail1))))).drop i).drop j) with
    | none => simp
    | some rest2 =>
      simp only [Option.some_bind]
      apply firstSome_eq_none
      intro k _
      cases hd : dropLit sdLit (rest2.drop k) with
      | none => simp
      | some rest3 =>
        exfalso
        set B := (town ++ spIf g1) ++ ('-' :: (spIf g2 ++ (sdLit ++ (' ' :: tail1))))
          with hB
        set P := (town ++ spIf g1).length with hP
        have hdd : ∀ (m n : Nat), List.drop n (List.drop m B) =
            List.drop (n + m) B := by
          intro m n
          rw [List.drop_drop, Nat.add_comm]
        have h2 : B.drop (j + i) = '-' :: rest2 := by
          rw [← hdd i j]
          exact headIs_eq_some.mp hh
        have h4 : rest2 = B.drop (1 + (j + i)) := by
          have h5 := congrArg (List.drop 1) h2
          rw [hdd (j + i) 1] at h5
          simpa using h5.symm
        have h3 : B.drop (k + (1 + (j + i))) = sdLit ++ rest3 := by
          have h6 := dropLit_eq_some.mp hd
          rwa [h4, hdd (1 + (j + i)) k] at h6
        have hdP : B.drop P = '-' :: (spIf g2 ++ (sdLit ++ (' ' :: tail1))) :=
          List.drop_left _ _
        have hdP1 : B.drop (P + 1) = spIf g2 ++ (sdLit ++ (' ' :: tail1)) := by
          rw [show P + 1 = 1 + P by omega, ← hdd P 1, hdP]
          simp
        cases g2 with
        | false =>
          have hdP2 : B.drop (P + 2) = lit "enate District" ++ (' ' :: tail1) := by
            rw [show P + 2 = 1 + (P + 1) by omega, ← hdd (P + 1) 1, hdP1]
            simp [spIf, sdLit_cons]
          have hq : k + (1 + (j + i)) =
              (k + (1 + (j + i)) - (P + 2)) + (P + 2) := by
            omega
          rw [hq, ← hdd (P + 2) (k + (1 + (j + i)) - (P + 2)), hdP2] at h3
          have hcon := containsSub_of_drop_eq h3
          rw [hone] at hcon
          exact absurd hcon (by decide)
        | true =>
          by_cases hq3 : P + 3 ≤ k + (1 + (j + i))
          · have hdP3 : B.drop (P + 3) = lit "enate District" ++ (' ' :: tail1) := by
              rw [show P + 3 = 2 + (P + 1) by omega, ← hdd (P + 1) 2, hdP1]
              simp [spIf, sdLit_cons]
            have hq : k + (1 + (j + i)) =
                (k + (1 + (j + i)) - (P + 3)) + (P + 3) := by
              omega
            rw [hq, ← hdd (P + 3) (k + (1 + (j + i)) - (P + 3)), hdP3] at h3
            have hcon := containsSub_of_drop_eq h3
            rw [hone] at hcon
            exact absurd hcon (by decide)
          · -- forced to use the hyphen position inside the optional space
            have hji : j + i = P + 1 := by omega
            rw [hji, hdP1] at h2
            simp [spIf] at h2

/-! ## Claim C1 -/

/-- C1: for every well-formed input string of the shape
`Town - Senate District N - Name (Party-County)` — allowing extra spaces
around the hyphens and embedded newlines, i.e. every raw string that
contains the literal `Senate District` and whose whitespace
normalisation has the canonical shape with at most one space around each
separator — `extract_senator_from_string` returns the four-tuple
(district, town, member, party): the digits, and the segments trimmed of
surrounding whitespace, with the party being exactly the text between
the opening parenthesis and the next hyphen.  The components are assumed
pre-trimmed where the shape demands it, the district is one or more
digits, the member contains no parenthesis and the party no hyphen, and
the literal `Senate District` occurs nowhere after its first character's
successor (so the pattern's greedy town capture settles on the true
separator). -/
theorem c1_extract_senator_wellformed
    {text town d member party county : Str} {g1 g2 g3 g4 g5 : Bool}
    (hsub : containsSub text sdLit = true)
    (hfmt : collapseWs (text.map newlineToSpace) =
      (town ++ spIf g1) ++ ('-' :: (spIf g2 ++ (sdLit ++ (' ' ::
        (d ++ (spIf g3 ++ ('-' :: (spIf g4 ++ (member ++ (spIf g5 ++
          ('(' :: (party ++ '-' :: county)))))))))))))
    (htne : town ≠ [])
    (hdne : d ≠ []) (hdig : d.all isDigitChar = true)
    (hmne : member ≠ []) (hmdot : member.all isDot = true)
    (hmnp : ∀ c ∈ member, c ≠ '(') (hmstrip : stripChars member = member)
    (hpne : party ≠ []) (hpdot : party.all isDot = true)
    (hpnh : ∀ c ∈ party, c ≠ '-') (hpstrip : stripChars party = party)
    (hone : containsSub (lit "enate District" ++ (' ' ::
      (d ++ (spIf g3 ++ ('-' :: (spIf g4 ++ (member ++ (spIf g5 ++
        ('(' :: (party ++ '-' :: county)))))))))) sdLit = false) :
    extract_senator_from_string text = (d, stripChars town, member, party) := by
  unfold extract_senator_from_string
  rw [hsub]
  simp only [if_true]
  rw [hfmt]
  have htail : matchDistrictTail (' ' :: (d ++ (spIf g3 ++ ('-' :: (spIf g4 ++
      (member ++ (spIf g5 ++ ('(' :: (party ++ '-' :: county))))))))) =
      some (d, member, party) :=
    matchDistrictTail_eval hdne hdig hmne hmdot hmnp
      (fun c t hct => head_not_space_of_strip hmstrip hct)
      (fun h => last_not_space_of_strip hmstrip h)
      hpne hpdot hpnh
  rw [matchSenatorPattern_eval_gen htne htail hone]
  have hsd : stripChars d = d := by
    apply stripChars_all_false
    intro c hc
    exact not_space_of_digit (List.all_eq_true.mp hdig c hc)
  simp only [hsd, stripChars_append_spIf, hmstrip, hpstrip]

/-- Witness for C1 at a concrete well-formed input with an embedded
newline and doubled spaces around separators. -/
theorem c1_extract_senator_wellformed_witness :
    extract_senator_from_string
        (lit "Bailey Island  -\nSenate District 23 -  Matthea E.L. Daughtry (D-Cumberland)") =
      (lit "23", lit "Bailey Island", lit "Matthea E.L. Daughtry", lit "D") := by
  have h := @c1_extract_senator_wellformed
    (lit "Bailey Island  -\nSenate District 23 -  Matthea E.L. Daughtry (D-Cumberland)")
    (lit "Bailey Island") (lit "23") (lit "Matthea E.L. Daughtry") (lit "D")
    (lit "Cumberland)") true true true true true
    (by decide) (by decide) (by decide) (by decide) (by decide) (by decide)
    (by decide) (by decide) (by decide) (by decide) (by decide)
    (by decide) (by decide) (by decide)
  exact h.trans (by decide)

/-! ## Claim C3 -/

theorem all_take_of_le_runLen {p : Char → Bool} {l : Str} {j : Nat}
    (h : j ≤ runLen p l) : (l.take j).all p = true := by
  have hsplit : l.take j = (l.takeWhile p).take j := by
    conv_lhs => rw [← List.takeWhile_append_dropWhile p l]
    exact List.take_append_of_le_length h
  rw [hsplit, List.all_eq_true]
  intro c hc
  exact List.mem_takeWhile_imp (List.mem_of_mem_take hc)

/-- Whenever the full senator pattern matches, the district capture is a
nonempty string of digits. -/
theorem matchDistrictTail_district {cs d m p : Str}
    (h : matchDistrictTail cs = some (d, m, p)) :
    d ≠ [] ∧ d.all isDigitChar = true := by
  unfold matchDistrictTail at h
  obtain ⟨i, _, hfi⟩ := firstSome_some h
  obtain ⟨j, hj, hfj⟩ := firstSome_some hfi
  have hjb := mem_descList hj
  obtain ⟨k, _, hfk⟩ := firstSome_some hfj
  rw [Option.bind_eq_some] at hfk
  obtain ⟨rest3, _, hfk2⟩ := hfk
  obtain ⟨l, _, hfl⟩ := firstSome_some hfk2
  rw [Option.map_eq_some'] at hfl
  obtain ⟨⟨m', p'⟩, _, heq⟩ := hfl
  have hd : d = (cs.drop i).take j := by
    have := congrArg Prod.fst heq
    simpa using this.symm
  subst hd
  constructor
  · have hlen : ((cs.drop i).take j).length = j := by
      rw [List.length_take]
      have := runLen_le_length isDigitChar (cs.drop i)
      have hjd : j ≤ digitRun (cs.drop i) := hjb.2
      unfold digitRun at hjd
      omega
    intro hnil
    rw [hnil] at hlen
    simp at hlen
    omega
  · exact all_take_of_le_runLen hjb.2

theorem matchSenatorPattern_district {cs t d m p : Str}
    (h : matchSenatorPattern cs = some (t, d, m, p)) :
    d ≠ [] ∧ d.all isDigitChar = true := by
  unfold matchSenatorPattern at h
  obtain ⟨i, _, hfi⟩ := firstSome_some h
  simp only [all_inTownClass, if_true] at hfi
  obtain ⟨j, _, hfj⟩ := firstSome_some hfi
  rw [Option.bind_eq_some] at hfj
  obtain ⟨rest2, _, hfj2⟩ := hfj
  obtain ⟨k, _, hfk⟩ := firstSome_some hfj2
  rw [Option.bind_eq_some] at hfk
  obtain ⟨rest3, _, hfk2⟩ := hfk
  rw [Option.map_eq_some'] at hfk2
  obtain ⟨⟨d', m', p'⟩, hdt, heq⟩ := hfk2
  have hdd : d' = d := by
    have := congrArg (fun q => q.2.1) heq
    simpa using this
  subst hdd
  exact matchDistrictTail_district hdt

/-- C3: `extract_senator_from_string` returns the all-empty tuple in
exactly two cases — the literal `Senate District` is absent from the raw
input, or it is present but the full pattern fails on the normalised
input — and both failure modes yield the identical all-empty output
(never a partial capture). -/
theorem c3_failure_modes (text : Str) :
    (containsSub text sdLit = false →
      extract_senator_from_string text = ([], [], [], [])) ∧
    (containsSub text sdLit = true →
      matchSenatorPattern (collapseWs (text.map newlineToSpace)) = none →
      extract_senator_from_string text = ([], [], [], [])) ∧
    (extract_senator_from_string text = ([], [], [], []) →
      containsSub text sdLit = false ∨
        matchSenatorPattern (collapseWs (text.map newlineToSpace)) = none) := by
  refine ⟨?_, ?_, ?_⟩
  · intro h
    unfold extract_senator_from_string
    rw [h]
    simp
  · intro h1 h2
    unfold extract_senator_from_string
    rw [h1]
    simp only [if_true]
    rw [h2]
  · intro h
    cases hb : containsSub text sdLit with
    | false => exact Or.inl rfl
    | true =>
      refine Or.inr ?_
      cases hm : matchSenatorPattern (collapseWs (text.map newlineToSpace)) with
      | none => rfl
      | some q =>
        exfalso
        obtain ⟨t, d, m, p⟩ := q
        unfold extract_senator_from_string at h
        rw [hb] at h
        simp only [if_true] at h
        rw [hm] at h
        have hdis := matchSenatorPattern_district hm
        have hsd : stripChars d = d := by
          apply stripChars_all_false
          intro c hc
          exact not_space_of_digit (List.all_eq_true.mp hdis.2 c hc)
        have hfst : stripChars d = [] := by
          have := congrArg Prod.fst h
          simpa using this
        rw [hsd] at hfst
        exact hdis.1 hfst

/-- Witness for C3: an input that contains `Senate District` but does
not match the full pattern yields the all-empty tuple. -/
theorem c3_failure_modes_witness :
    extract_senator_from_string (lit "Senate District 5 - incomplete data") =
      ([], [], [], []) :=
  (c3_failure_modes _).2.1 (by decide) (by decide)

/-! ## Data model for profile-page content

A parsed content region (the `div#content` of a page) is a list of
paragraph elements.  A paragraph is modelled by the data the extractors
inspect: its `get_text()`, its `<a>` descendants carrying an `href`
attribute (in document order), and whether it contains `<strong>` or
`<b>` descendants. -/

/-- An `<a>` element with an `href` attribute: its target and its
visible text. -/
structure Anchor where
  href : Str
  text : Str
deriving DecidableEq

/-- A `<p>` element of a content region. -/
structure Para where
  text : Str
  anchors : List Anchor
  hasStrong : Bool
  hasB : Bool
deriving DecidableEq

/-- `re.compile(pat, re.IGNORECASE).search(text)` for a plain-literal
pattern: case-insensitive containment. -/
def containsCI (pat t : Str) : Bool :=
  containsSub (t.map Char.toLower) (pat.map Char.toLower)

/-- Python `sep.join(items)`. -/
def joinSep (sep : Str) : List Str → Str
  | [] => []
  | [x] => x
  | x :: xs => x ++ sep ++ joinSep sep xs

theorem joinSep_if_ne_nil (sep : Str) (l : List Str) :
    (if l ≠ [] then joinSep sep l else []) = joinSep sep l := by
  by_cases h : l = []
  · subst h
    simp [joinSep]
  · simp [h]

/-! ## The phone extractor -/

/-- The separator class `[\s.-]` of the phone pattern. -/
def isSepChar (c : Char) : Bool := isSpaceChar c || c = '.' || c = '-'

/-- Exactly `n` digits (`\d{n}`), returning the remainder. -/
def digitsN : Nat → Str → Option Str
  | 0, cs => some cs
  | _ + 1, [] => none
  | n + 1, c :: cs => if isDigitChar c then digitsN n cs else none

/-- `[\s.-]?\d{4}` with the greedy optional explored consumed-first. -/
def phoneTail2 : Str → Option Str
  | [] => none
  | c :: rest =>
    if isSepChar c then digitsN 4 rest <|> digitsN 4 (c :: rest)
    else digitsN 4 (c :: rest)

/-- `[\s.-]?\d{3}[\s.-]?\d{4}`. -/
def phoneTail1 : Str → Option Str
  | [] => none
  | c :: rest =>
    if isSepChar c then
      (digitsN 3 rest).bind phoneTail2 <|> (digitsN 3 (c :: rest)).bind phoneTail2
    else (digitsN 3 (c :: rest)).bind phoneTail2

/-- `\d{3}\)?[\s.-]?\d{3}[\s.-]?\d{4}`: the phone pattern after the
optional opening parenthesis. -/
def matchPhoneCore (cs : Str) : Option Str :=
  (digitsN 3 cs).bind fun r =>
    match r with
    | c :: r2 => if c = ')' then phoneTail1 r2 <|> phoneTail1 (c :: r2) else phoneTail1 (c :: r2)
    | [] => phoneTail1 []

/-- An anchored attempt of `\(?\d{3}\)?[\s.-]?\d{3}[\s.-]?\d{4}`,
returning the remainder after the match. -/
def matchPhoneAt : Str → Option Str
  | [] => matchPhoneCore []
  | c :: rest =>
    if c = '(' then matchPhoneCore rest <|> matchPhoneCore (c :: rest)
    else matchPhoneCore (c :: rest)

/-- `re.findall(phone_regex, ·)`: scan left to right, collecting
non-overlapping matches.  The fuel equals the scanned length, which
suffices because every match consumes at least ten characters. -/
def findPhonesGo : Nat → Str → List Str
  | 0, _ => []
  | _ + 1, [] => []
  | fuel + 1, c :: rest =>
    match matchPhoneAt (c :: rest) with
    | some r =>
      (c :: rest).take ((c :: rest).length - r.length) :: findPhonesGo fuel r
    | none => findPhonesGo fuel rest

def findPhones (t : Str) : List Str := findPhonesGo t.length t

/-- The paragraph loop of `extract_phones_from_content`: scan every
paragraph for the three labels, extending each label's bucket with all
phone numbers of a matching paragraph. -/
def phonesLoop : List Para → List Str × List Str × List Str →
    List Str × List Str × List Str
  | [], acc => acc
  | p :: ps, acc =>
    phonesLoop ps
      (if containsCI (lit "Home") p.text then acc.1 ++ findPhones p.text else acc.1,
       if containsCI (lit "Cell") p.text then acc.2.1 ++ findPhones p.text else acc.2.1,
       if containsCI (lit "State House") p.text then acc.2.2 ++ findPhones p.text
        else acc.2.2)

/-- `extract_phones_from_content` of `src/main.py`: returns
(home_phone, state_house_phone) as comma-separated strings, with
home- and cell-labelled numbers merged into the first component. -/
def extract_phones_from_content (content : List Para) (member : Str) : Str × Str :=
  let acc := phonesLoop content ([], [], [])
  let personal := acc.1 ++ acc.2.1
  (if personal ≠ [] then joinSep (lit ", ") personal else [],
   if acc.2.2 ≠ [] then joinSep (lit ", ") acc.2.2 else [])

/-- Specification-side description of one label's bucket: the phone
numbers of the paragraphs matching that label, in paragraph order. -/
def phonesLabeledSpec (pat : Str) : List Para → List Str
  | [] => []
  | p :: ps =>
    (if containsCI pat p.text then findPhones p.text else []) ++
      phonesLabeledSpec pat ps

theorem phonesLoop_eq (content : List Para) :
    ∀ a b c, phonesLoop content (a, b, c) =
      (a ++ phonesLabeledSpec (lit "Home") content,
       b ++ phonesLabeledSpec (lit "Cell") content,
       c ++ phonesLabeledSpec (lit "State House") content) := by
  induction content with
  | nil => intro a b c; simp [phonesLoop, phonesLabeledSpec]
  | cons p ps ih =>
    intro a b c
    simp only [phonesLoop, phonesLabeledSpec, ih, List.append_assoc]
    by_cases h1 : containsCI (lit "Home") p.text <;>
      by_cases h2 : containsCI (lit "Cell") p.text <;>
        by_cases h3 : containsCI (lit "State House") p.text <;>
          simp [h1, h2, h3]

/-! ## Claim C4 -/

/-- C4: the phone extractor's first component is the comma-join of all
numbers from `Home`-labelled paragraphs (in paragraph order) followed by
all numbers from `Cell`-labelled paragraphs (in paragraph order) — cell
numbers always come after home numbers, whatever the document order —
while `State House`-labelled numbers form the separate second component
and are never mixed into the first. -/
theorem c4_phone_buckets (content : List Para) (member : Str) :
    extract_phones_from_content content member =
      (joinSep (lit ", ")
        (phonesLabeledSpec (lit "Home") content ++
          phonesLabeledSpec (lit "Cell") content),
       joinSep (lit ", ") (phonesLabeledSpec (lit "State House") content)) := by
  unfold extract_phones_from_content
  rw [phonesLoop_eq]
  simp only [List.nil_append]
  rw [joinSep_if_ne_nil, joinSep_if_ne_nil]

/-! ## Claim C10 -/

/-- C10: a single paragraph whose text matches several labels at once
contributes every phone number it contains to each matching bucket: with
`Home`, `Cell` and `State House` all present in one paragraph, every
number is duplicated inside the homePhone field and also appears in the
stateHousePhone field. -/
theorem c10_multilabel_paragraph (t : Str) (anchors : List Anchor)
    (hs hb : Bool) (member : Str)
    (hHome : containsCI (lit "Home") t = true)
    (hCell : containsCI (lit "Cell") t = true)
    (hSH : containsCI (lit "State House") t = true) :
    extract_phones_from_content [⟨t, anchors, hs, hb⟩] member =
      (joinSep (lit ", ") (findPhones t ++ findPhones t),
       joinSep (lit ", ") (findPhones t)) := by
  unfold extract_phones_from_content
  rw [phonesLoop_eq]
  simp only [phonesLabeledSpec, hHome, hCell, hSH, if_true, List.nil_append,
    List.append_nil]
  rw [joinSep_if_ne_nil, joinSep_if_ne_nil]

/-- Witness for C10: a concrete paragraph carrying all three labels and
one number duplicates that number inside homePhone and repeats it in
stateHousePhone. -/
theorem c10_multilabel_paragraph_witness :
    extract_phones_from_content
        [⟨lit "Home / Cell / State House: 207-555-1234", [], false, false⟩]
        (lit "Test Senator") =
      (lit "207-555-1234, 207-555-1234", lit "207-555-1234") :=
  (c10_multilabel_paragraph _ _ _ _ _ (by decide) (by decide) (by decide)).trans
    (by decide)

/-! ## The email extractor -/

/-- The local-part class `[a-zA-Z0-9._%+-]` of the email pattern. -/
def emailLocalChar (c : Char) : Bool :=
  c.isAlphanum || c = '.' || c = '_' || c = '%' || c = '+' || c = '-'

/-- The domain class `[a-zA-Z0-9.-]` of the email pattern. -/
def emailDomainChar (c : Char) : Bool := c.isAlphanum || c = '.' || c = '-'

/-- An anchored attempt of
`[a-zA-Z0-9._%+-]+@[a-zA-Z0-9.-]+\.[a-zA-Z]{2,}`, with the greedy
repetitions explored longest-first; returns the length of the match. -/
def matchEmailAt (cs : Str) : Option Nat :=
  firstSome (descList 1 (runLen emailLocalChar cs)) fun i =>
    match cs.drop i with
    | c :: rest =>
      if c = '@' then
        firstSome (descList 1 (runLen emailDomainChar rest)) fun j =>
          match rest.drop j with
          | c2 :: rest2 =>
            if c2 = '.' then
              if 2 ≤ runLen (fun ch => ch.isAlpha) rest2 then
                some (i + 1 + j + 1 + runLen (fun ch => ch.isAlpha) rest2)
              else none
            else none
          | [] => none
      else none
    | [] => none

/-- `re.match(email_regex, ·)` used as a validity test: does the string
begin with an address? -/
def reMatchEmail (cs : Str) : Bool := (matchEmailAt cs).isSome

/-- `re.search(email_regex, ·)`: the text of the leftmost match. -/
def reSearchEmail : Str → Option Str
  | [] => none
  | c :: rest =>
    match matchEmailAt (c :: rest) with
    | some n => some ((c :: rest).take n)
    | none => reSearchEmail rest

/-- `p_tag.find("a", href=re.compile(r"^mailto:\s*"))`: the first anchor
whose target starts with `mailto:`. -/
def findMailtoLink : List Anchor → Option Anchor
  | [] => none
  | a :: rest =>
    if isPrefOf (lit "mailto:") a.href then some a else findMailtoLink rest

/-- `re.sub(r"^mailto:\s*", "", href).strip()`. -/
def stripMailtoHref (h : Str) : Str :=
  if isPrefOf (lit "mailto:") h then
    stripChars ((h.drop 7).dropWhile isSpaceChar)
  else stripChars h

/-- `extract_email_from_content` of `src/main.py`: scan paragraphs whose
text contains `Email`; prefer a mailto link's visible text when it
begins with an address, then the address stripped from the link target,
then a plain-text regex search; return at the first paragraph yielding
anything, else the empty string. -/
def extract_email_from_content (content : List Para) (member : Str) : Str :=
  match content with
  | [] => []
  | p :: rest =>
    if containsCI (lit "Email") p.text then
      match findMailtoLink p.anchors with
      | some a =>
        let email_text := stripChars a.text
        if reMatchEmail email_text then email_text
        else
          let email_from_href := stripMailtoHref a.href
          if reMatchEmail email_from_href then email_from_href
          else
            match reSearchEmail p.text with
            | some e => stripChars e
            | none => extract_email_from_content rest member
      | none =>
        match reSearchEmail p.text with
        | some e => stripChars e
        | none => extract_email_from_content rest member
    else extract_email_from_content rest member

/-- Specification-side description of what one paragraph yields to the
email scan (`none` when the paragraph does not qualify). -/
def emailOfPara (p : Para) : Option Str :=
  if containsCI (lit "Email") p.text then
    match findMailtoLink p.anchors with
    | some a =>
      if reMatchEmail (stripChars a.text) then some (stripChars a.text)
      else
        if reMatchEmail (stripMailtoHref a.href) then some (stripMailtoHref a.href)
        else (reSearchEmail p.text).map stripChars
    | none => (reSearchEmail p.text).map stripChars
  else none

/-- First paragraph yielding an email wins. -/
def firstEmail : List Para → Option Str
  | [] => none
  | p :: rest =>
    match emailOfPara p with
    | some e => some e
    | none => firstEmail rest

/-- Whole-string validity against the email pattern, as the claim's
"syntactically valid address" reads: the match must cover the entire
string, not merely a prefix.  (The greedy search finds the longest
anchored match, so comparing its length with the string's length decides
full-match validity.) -/
def isFullEmailMatch (cs : Str) : Bool :=
  match matchEmailAt cs with
  | some n => n = cs.length
  | none => false

/-! ## Claim C5 -/

/-- Counterexample to C5 as stated: the code tests the link's visible
text with `re.match`, a prefix match, not full-string validity.  On a
paragraph whose mailto link shows `fake@y.com extra` (not itself a valid
address, only prefixed by one) over the valid target `real@x.com`, the
claim demands the target address, but the extractor returns the visible
text with its trailing junk. -/
theorem c5_email_counterexample :
    extract_email_from_content
        [⟨lit "Email", [⟨lit "mailto:real@x.com", lit "fake@y.com extra"⟩],
          false, false⟩] (lit "X") =
      lit "fake@y.com extra" ∧
    isFullEmailMatch (lit "fake@y.com extra") = false ∧
    isFullEmailMatch (stripMailtoHref (lit "mailto:real@x.com")) = true ∧
    extract_email_from_content
        [⟨lit "Email", [⟨lit "mailto:real@x.com", lit "fake@y.com extra"⟩],
          false, false⟩] (lit "X") ≠
      stripMailtoHref (lit "mailto:real@x.com") := by
  refine ⟨by decide, by decide, by decide, by decide⟩

/-- C5 (amended): the email extractor scans paragraphs whose text
contains `Email` (case-insensitive); for the first mailto link of such a
paragraph it returns the stripped visible text when that text merely
begins with a syntactically valid address (the whole text, even with
trailing content), otherwise the address stripped from the mailto target
when that begins with a valid address, otherwise the first regex match
in the paragraph's plain text; the first paragraph yielding a result
wins and later paragraphs are not considered; if no paragraph yields
anything the result is the empty string. -/
theorem c5_email_first_qualifying (content : List Para) (member : Str) :
    extract_email_from_content content member = (firstEmail content).getD [] := by
  induction content with
  | nil => rfl
  | cons p ps ih =>
    show extract_email_from_content (p :: ps) member = _
    unfold extract_email_from_content firstEmail
    by_cases h1 : containsCI (lit "Email") p.text
    · rw [h1]
      simp only [if_true]
      unfold emailOfPara
      rw [h1]
      simp only [if_true]
      cases hml : findMailtoLink p.anchors with
      | some a =>
        by_cases h2 : reMatchEmail (stripChars a.text)
        · simp [h2]
        · simp only [h2, if_false, Bool.false_eq_true]
          by_cases h3 : reMatchEmail (stripMailtoHref a.href)
          · simp [h3]
          · simp only [h3, if_false, Bool.false_eq_true]
            cases hse : reSearchEmail p.text with
            | some e => simp
            | none => simpa using ih
      | none =>
        cases hse : reSearchEmail p.text with
        | some e => simp
        | none => simpa using ih
    · have h1' : containsCI (lit "Email") p.text = false := by
        simpa using h1
      rw [h1']
      simp only [Bool.false_eq_true, if_false]
      rw [ih]
      unfold emailOfPara
      rw [h1']
      simp

/-! ## The committee extractor -/

/-- The paragraph loop of `extract_committees_from_content`, carrying
the `found_committee_section` flag: a paragraph whose text contains
`Committee Assignments` (case-insensitive) arms the flag and is skipped;
once armed, an empty paragraph or one containing a `<strong>` descendant
stops collection, any other paragraph's trimmed text is collected. -/
def committeesLoop : List Para → Bool → List Str
  | [], _ => []
  | p :: rest, found =>
    if containsCI (lit "Committee Assignments") p.text then
      committeesLoop rest true
    else if found then
      if stripChars p.text = [] || p.hasStrong then []
      else stripChars p.text :: committeesLoop rest found
    else committeesLoop rest found

/-- `extract_committees_from_content` of `src/main.py`. -/
def extract_committees_from_content (content : List Para) : Str :=
  joinSep (lit "; ") (committeesLoop content false)

/-- The paragraphs following the first trigger paragraph, when a trigger
exists. -/
def afterTrigger : List Para → Option (List Para)
  | [] => none
  | p :: rest =>
    if containsCI (lit "Committee Assignments") p.text then some rest
    else afterTrigger rest

/-- Collection as claim C6 words it: take trimmed texts, stopping at
(and excluding) the first paragraph that is empty or contains a bold or
strong-emphasised sub-element. -/
def collectClaimC6 : List Para → List Str
  | [] => []
  | p :: rest =>
    if stripChars p.text = [] || p.hasStrong || p.hasB then []
    else stripChars p.text :: collectClaimC6 rest

/-- Claim C6's description of the committee extractor. -/
def committeesClaimSpec (content : List Para) : Str :=
  match afterTrigger content with
  | some rest => joinSep (lit "; ") (collectClaimC6 rest)
  | none => []

/-- Collection as the code actually behaves after the first trigger:
later trigger-text paragraphs are skipped (never collected, never
stopping), and only an empty paragraph or a `<strong>` descendant stops;
a `<b>` descendant alone does not. -/
def collectAmendedC6 : List Para → List Str
  | [] => []
  | p :: rest =>
    if containsCI (lit "Committee Assignments") p.text then collectAmendedC6 rest
    else if stripChars p.text = [] || p.hasStrong then []
    else stripChars p.text :: collectAmendedC6 rest

/-- The amended description of the committee extractor. -/
def committeesAmendedSpec (content : List Para) : Str :=
  match afterTrigger content with
  | some rest => joinSep (lit "; ") (collectAmendedC6 rest)
  | none => []

/-! ## Claim C6 -/

/-- Counterexample to C6 as stated, in two parts.  First, a paragraph
after the trigger whose own text contains `Committee Assignments` is
skipped by the code (the trigger branch fires first), while the claim
says it is collected like any other non-empty, non-bold paragraph.
Second, the code stops only at a `<strong>` descendant: a paragraph
bolded with `<b>` is collected, while the claim's "bold/strong" stop
condition says collection halts there. -/
theorem c6_committees_counterexample :
    (extract_committees_from_content
        [⟨lit "Committee Assignments:", [], true, false⟩,
         ⟨lit "Agriculture", [], false, false⟩,
         ⟨lit "More Committee Assignments", [], false, false⟩,
         ⟨lit "Education", [], false, false⟩] =
      lit "Agriculture; Education" ∧
     committeesClaimSpec
        [⟨lit "Committee Assignments:", [], true, false⟩,
         ⟨lit "Agriculture", [], false, false⟩,
         ⟨lit "More Committee Assignments", [], false, false⟩,
         ⟨lit "Education", [], false, false⟩] =
      lit "Agriculture; More Committee Assignments; Education") ∧
    (extract_committees_from_content
        [⟨lit "Committee Assignments:", [], true, false⟩,
         ⟨lit "Agriculture", [], false, false⟩,
         ⟨lit "Home: (207) 323-9976", [], false, true⟩] =
      lit "Agriculture; Home: (207) 323-9976" ∧
     committeesClaimSpec
        [⟨lit "Committee Assignments:", [], true, false⟩,
         ⟨lit "Agriculture", [], false, false⟩,
         ⟨lit "Home: (207) 323-9976", [], false, true⟩] =
      lit "Agriculture") := by
  refine ⟨⟨by decide, by decide⟩, by decide, by decide⟩

theorem committeesLoop_true (ps : List Para) :
    committeesLoop ps true = collectAmendedC6 ps := by
  induction ps with
  | nil => rfl
  | cons p rest ih =>
    unfold committeesLoop collectAmendedC6
    by_cases h1 : containsCI (lit "Committee Assignments") p.text
    · simp [h1, ih]
    · have h1' : containsCI (lit "Committee Assignments") p.text = false := by
        simpa using h1
      by_cases h2 : stripChars p.text = [] ∨ p.hasStrong = true
      · simp only [h1', Bool.false_eq_true, if_false, if_true]
        rw [if_pos (by simpa using h2), if_pos (by simpa using h2)]
      · simp only [h1', Bool.false_eq_true, if_false, if_true]
        rw [if_neg (by simpa using h2), if_neg (by simpa using h2), ih]

theorem committeesLoop_false (ps : List Para) :
    committeesLoop ps false =
      match afterTrigger ps with
      | some rest => collectAmendedC6 rest
      | none => [] := by
  induction ps with
  | nil => rfl
  | cons p rest ih =>
    unfold committeesLoop afterTrigger
    by_cases h1 : containsCI (lit "Committee Assignments") p.text
    · simp [h1, committeesLoop_true]
    · have h1' : containsCI (lit "Committee Assignments") p.text = false := by
        simpa using h1
      simp [h1', ih]

/-- C6 (amended): the committee extractor joins with `; ` the trimmed
texts of the paragraphs following the first paragraph containing
`Committee Assignments` (case-insensitive), where any later paragraph
whose text also contains `Committee Assignments` is skipped without
being collected and without stopping collection, and collection stops at
(and excludes) the first other paragraph that is empty/whitespace-only
or contains a `<strong>` sub-element — a `<b>` sub-element alone does
not stop collection; with no trigger paragraph the result is empty. -/
theorem c6_committees_amended (content : List Para) :
    extract_committees_from_content content = committeesAmendedSpec content := by
  unfold extract_committees_from_content committeesAmendedSpec
  rw [committeesLoop_false]
  cases afterTrigger content <;> rfl

/-! ## Municipality records, senator details and output rows -/

/-- A profile-detail tuple
(email, home_phone, state_house_phone, committees). -/
abbrev Detail := Str × Str × Str × Str

/-- A municipality tuple (district, town, member, party, profile_link),
as collected from the index page. -/
abbrev Muni := Str × Str × Str × Str × Str

/-- An output row (district, town, member, party, email, home_phone,
state_house_phone, committees). -/
abbrev Row := Str × Str × Str × Str × Str × Str × Str × Str

/-- The member name of a municipality record. -/
def muniMember (m : Muni) : Str := m.2.2.1

/-- The profile link of a municipality record. -/
def muniLink (m : Muni) : Str := m.2.2.2.2

/-- Python `dict.get(key, default)` over an insertion-ordered mapping
modelled as an association list with unique keys. -/
def dictGet {α : Type} (d : List (Str × α)) (k : Str) (dflt : α) : α :=
  match d with
  | [] => dflt
  | (k', v) :: rest => if k' = k then v else dictGet rest k dflt

/-- The join loop of `parse_senators_page` (lines 272-277 of
`src/main.py`): one output row per municipality record, profile fields
looked up by member name with the all-empty tuple as default. -/
def build_senator_rows (municipalities : List Muni)
    (senator_details : List (Str × Detail)) : List Row :=
  municipalities.map fun m =>
    let det := dictGet senator_details (muniMember m) ([], [], [], [])
    (m.1, m.2.1, m.2.2.1, m.2.2.2.1, det.1, det.2.1, det.2.2.1, det.2.2.2)

theorem dictGet_miss {α : Type} {d : List (Str × α)} {k : Str} {dflt : α}
    (h : ∀ kv ∈ d, kv.1 ≠ k) : dictGet d k dflt = dflt := by
  induction d with
  | nil => rfl
  | cons kv rest ih =>
    obtain ⟨k', v⟩ := kv
    have hk : k' ≠ k := h (k', v) (by simp)
    simp only [dictGet, if_neg hk]
    exact ih fun kv hkv => h kv (by simp [hkv])

/-! ## Claim C2 -/

/-- C2: the output has exactly one row per municipality record, in the
same order; each row's profile fields come solely from looking up that
row's member name in the senator-detail table; and a missed lookup
yields four empty strings, never an absent row. -/
theorem c2_one_row_per_municipality (ms : List Muni)
    (table : List (Str × Detail)) :
    (build_senator_rows ms table).length = ms.length ∧
    (∀ (i : Nat) (m : Muni), ms[i]? = some m →
      (build_senator_rows ms table)[i]? =
        some (m.1, m.2.1, m.2.2.1, m.2.2.2.1,
          (dictGet table (muniMember m) ([], [], [], [])).1,
          (dictGet table (muniMember m) ([], [], [], [])).2.1,
          (dictGet table (muniMember m) ([], [], [], [])).2.2.1,
          (dictGet table (muniMember m) ([], [], [], [])).2.2.2)) ∧
    (∀ (i : Nat) (m : Muni), ms[i]? = some m → (∀ kv ∈ table, kv.1 ≠ muniMember m) →
      (build_senator_rows ms table)[i]? =
        some (m.1, m.2.1, m.2.2.1, m.2.2.2.1,
          ([] : Str), ([] : Str), ([] : Str), ([] : Str))) := by
  refine ⟨by simp [build_senator_rows], ?_, ?_⟩
  · intro i m hm
    unfold build_senator_rows
    rw [List.getElem?_map, hm]
    rfl
  · intro i m hm hmiss
    unfold build_senator_rows
    rw [List.getElem?_map, hm]
    simp [dictGet_miss hmiss]

/-- Witness for C2 on a concrete input: two municipality rows, a table
carrying one member; the present member's fields are joined in, the
missing member's profile fields are all empty. -/
theorem c2_one_row_per_municipality_witness :
    (build_senator_rows
        [(lit "23", lit "Bailey Island", lit "Matthea E.L. Daughtry", lit "D",
          lit "/district23"),
         (lit "5", lit "Bingham", lit "Russell J. Black", lit "R", lit "/district5")]
        [(lit "Matthea E.L. Daughtry",
          (lit "m@x.gov", lit "207-555-0001", lit "207-287-1515", lit "Housing"))])[1]? =
      some (lit "5", lit "Bingham", lit "Russell J. Black", lit "R",
        [], [], [], []) :=
  (c2_one_row_per_municipality _ _).2.2 1
    (lit "5", lit "Bingham", lit "Russell J. Black", lit "R", lit "/district5")
    (by decide) (by decide)

/-! ## Deduplication of senators (Counter-based majority link) -/

/-- `key in dict` over the association-list model. -/
def containsKey {α : Type} (d : List (Str × α)) (k : Str) : Bool :=
  d.any fun kv => kv.1 = k

/-- In-place update of the (unique) entry of `k`, as `dict[k] = f old`
behaves on an insertion-ordered dict. -/
def updateAssoc {α : Type} (d : List (Str × α)) (k : Str) (f : α → α) :
    List (Str × α) :=
  match d with
  | [] => []
  | (k', v) :: rest =>
    if k' = k then (k', f v) :: rest else (k', v) :: updateAssoc rest k f

/-- The first loop of `get_unique_senators_with_links`: an
insertion-ordered mapping from member name to its list of nonempty
profile links, in encounter order. -/
def senatorLinksLoop : List Muni → List (Str × List Str) → List (Str × List Str)
  | [], acc => acc
  | m :: ms, acc =>
    let acc1 := if containsKey acc (muniMember m) then acc
      else acc ++ [(muniMember m, [])]
    let acc2 := if muniLink m ≠ [] then
        updateAssoc acc1 (muniMember m) (fun ls => ls ++ [muniLink m])
      else acc1
    senatorLinksLoop ms acc2

/-- `collections.Counter(links)`: counts keyed in first-occurrence
order. -/
def counterAdd (c : List (Str × Nat)) (x : Str) : List (Str × Nat) :=
  if containsKey c x then updateAssoc c x (· + 1) else c ++ [(x, 1)]

def counterOf (l : List Str) : List (Str × Nat) := l.foldl counterAdd []

/-- `Counter.most_common(1)[0][0]`: the key of maximal count;
`heapq.nlargest` is stable, so ties go to the earliest-inserted key,
which a strictly-greater fold from the left reproduces. -/
def mostCommon1 : List (Str × Nat) → Str
  | [] => []
  | kv :: rest =>
    (rest.foldl (fun best kv' => if kv'.2 > best.2 then kv' else best) kv).1

/-- `get_unique_senators_with_links` of `src/main.py`. -/
def get_unique_senators_with_links (municipalities : List Muni) :
    List (Str × Str) :=
  let senator_links := senatorLinksLoop municipalities []
  senator_links.map fun kv =>
    (kv.1, if kv.2 ≠ [] then mostCommon1 (counterOf kv.2) else [])

/-- Distinct elements in first-occurrence order. -/
def dedupFirst : List Str → List Str
  | [] => []
  | x :: xs => x :: dedupFirst (xs.filter fun y => y ≠ x)
termination_by l => l.length
decreasing_by
  simp only [List.length_cons]
  have := List.length_filter_le (fun y => decide (y ≠ x)) xs
  omega

/-- The nonempty profile links of a member's municipality rows, in row
order. -/
def linksOf (ms : List Muni) (k : Str) : List Str :=
  ((ms.filter fun m => muniMember m = k).map muniLink).filter fun l => l ≠ []

/-- The claim's selection rule: the most frequently occurring element,
ties broken by first occurrence. -/
def mostFrequentFirst (l : List Str) : Str :=
  match dedupFirst l with
  | [] => []
  | k :: ks =>
    ks.foldl (fun best k' => if l.count k' > l.count best then k' else best) k

theorem mem_dedupFirst {x : Str} {l : List Str} :
    x ∈ dedupFirst l ↔ x ∈ l := by
  induction l using dedupFirst.induct with
  | case1 => simp [dedupFirst]
  | case2 y ys ih =>
    rw [dedupFirst]
    by_cases hxy : x = y
    · subst hxy; simp
    · simp only [List.mem_cons, ih, List.mem_filter]
      simp [hxy]

theorem nodup_dedupFirst (l : List Str) : (dedupFirst l).Nodup := by
  induction l using dedupFirst.induct with
  | case1 => simp [dedupFirst]
  | case2 y ys ih =>
    rw [dedupFirst, List.nodup_cons]
    refine ⟨?_, ih⟩
    intro hy
    have := List.mem_filter.mp (mem_dedupFirst.mp hy)
    simp at this

theorem dedupFirst_ne_nil {l : List Str} (h : l ≠ []) : dedupFirst l ≠ [] := by
  cases l with
  | nil => exact absurd rfl h
  | cons x xs => simp [dedupFirst]

theorem dedupFirst_append_singleton (l : List Str) (x : Str) :
    dedupFirst (l ++ [x]) =
      if x ∈ l then dedupFirst l else dedupFirst l ++ [x] := by
  induction l using dedupFirst.induct with
  | case1 => simp [dedupFirst]
  | case2 y ys ih =>
    by_cases hxy : x = y
    · subst hxy
      rw [List.cons_append, dedupFirst, dedupFirst]
      have hfa : (ys ++ [x]).filter (fun z => z ≠ x) = ys.filter (fun z => z ≠ x) := by
        rw [List.filter_append]
        simp
      rw [hfa]
      simp
    · rw [List.cons_append, dedupFirst, dedupFirst]
      have hfa : (ys ++ [x]).filter (fun z => z ≠ y) =
          ys.filter (fun z => z ≠ y) ++ [x] := by
        rw [List.filter_append]
        simp [hxy]
      have hmem : x ∈ ys.filter (fun z => z ≠ y) ↔ x ∈ ys := by
        simp [List.mem_filter, hxy]
      by_cases hx : x ∈ ys
      · rw [hfa, ih, if_pos (hmem.mpr hx), if_pos (by simp [hx])]
      · rw [hfa, ih, if_neg (fun hc => hx (hmem.mp hc)),
          if_neg (by simp [hx, hxy])]
        simp

theorem containsKey_map {α : Type} (keys : List Str) (f : Str → α) (x : Str) :
    containsKey (keys.map fun k => (k, f k)) x = true ↔ x ∈ keys := by
  unfold containsKey
  rw [List.any_eq_true]
  constructor
  · rintro ⟨kv, hkv, hp⟩
    obtain ⟨k, hk, rfl⟩ := List.mem_map.mp hkv
    have : k = x := by simpa using hp
    exact this ▸ hk
  · intro hx
    exact ⟨(x, f x), List.mem_map_of_mem _ hx, by simp⟩

theorem updateAssoc_map {α : Type} (keys : List Str) (f : Str → α) (x : Str)
    (g : α → α) (hnd : keys.Nodup) :
    updateAssoc (keys.map fun k => (k, f k)) x g =
      keys.map fun k => (k, if k = x then g (f k) else f k) := by
  induction keys with
  | nil => rfl
  | cons k ks ih =>
    rw [List.nodup_cons] at hnd
    simp only [List.map_cons, updateAssoc]
    by_cases hk : k = x
    · subst hk
      rw [if_pos rfl, if_pos rfl]
      congr 1
      apply List.map_congr_left
      intro k' hk'
      rw [if_neg]
      intro hcon
      exact hnd.1 (hcon ▸ hk')
    · rw [if_neg hk, if_neg hk, ih hnd.2]

theorem counterAdd_mapped (l₀ : List Str) (x : Str) :
    counterAdd ((dedupFirst l₀).map fun k => (k, l₀.count k)) x =
      (dedupFirst (l₀ ++ [x])).map fun k => (k, (l₀ ++ [x]).count k) := by
  unfold counterAdd
  by_cases hx : x ∈ l₀
  · rw [if_pos ((containsKey_map _ _ _).mpr (mem_dedupFirst.mpr hx)),
      updateAssoc_map _ _ _ _ (nodup_dedupFirst l₀),
      dedupFirst_append_singleton, if_pos hx]
    apply List.map_congr_left
    intro k hk
    rw [List.count_append, List.count_singleton]
    by_cases hkx : k = x
    · subst hkx
      simp
    · have hb : (x == k) = false := by
        simp only [beq_eq_false_iff_ne, ne_eq]
        exact fun h => hkx h.symm
      simp [hb, hkx]
  · rw [if_neg (fun hc => hx (mem_dedupFirst.mp ((containsKey_map _ _ _).mp hc))),
      dedupFirst_append_singleton, if_neg hx, List.map_append]
    congr 1
    · apply List.map_congr_left
      intro k hk
      have hkx : k ≠ x := fun hc => hx (hc ▸ mem_dedupFirst.mp hk)
      have hb : (x == k) = false := by
        simp only [beq_eq_false_iff_ne, ne_eq]
        exact fun h => hkx h.symm
      rw [List.count_append, List.count_singleton]
      simp [hb]
    · rw [List.map_singleton, List.count_append, List.count_singleton]
      rw [List.count_eq_zero.mpr hx]
      simp

theorem counterOf_from (l : List Str) : ∀ l₀ : List Str,
    l.foldl counterAdd ((dedupFirst l₀).map fun k => (k, l₀.count k)) =
      (dedupFirst (l₀ ++ l)).map fun k => (k, (l₀ ++ l).count k) := by
  induction l with
  | nil =>
    intro l₀
    simp
  | cons x xs ih =>
    intro l₀
    rw [List.foldl_cons, counterAdd_mapped, ih (l₀ ++ [x])]
    simp [List.append_assoc]

theorem counterOf_eq (l : List Str) :
    counterOf l = (dedupFirst l).map fun k => (k, l.count k) := by
  have h := counterOf_from l []
  simpa [counterOf, dedupFirst] using h

theorem argmax_fold_aux (l : List Str) : ∀ (ks : List Str) (b : Str),
    (ks.foldl (fun best k' => if l.count k' > best.2 then (k', l.count k') else best)
      (b, l.count b)).1 =
      ks.foldl (fun best k' => if l.count k' > l.count best then k' else best) b := by
  intro ks
  induction ks with
  | nil => intro b; rfl
  | cons k' ks ih =>
    intro b
    simp only [List.foldl_cons]
    by_cases h : l.count k' > l.count b
    · rw [if_pos h, if_pos h]
      exact ih k'
    · rw [if_neg h, if_neg h]
      exact ih b

theorem mostCommon1_counterOf {l : List Str} (h : l ≠ []) :
    mostCommon1 (counterOf l) = mostFrequentFirst l := by
  rw [counterOf_eq]
  unfold mostFrequentFirst
  cases hd : dedupFirst l with
  | nil => exact absurd hd (dedupFirst_ne_nil h)
  | cons k ks =>
    unfold mostCommon1
    simp only [List.map_cons]
    rw [List.foldl_map]
    exact argmax_fold_aux l ks k

/-- The grouped view of the link-collection loop's accumulator after
processing a prefix of the municipality list. -/
def memberLinksAcc (pre : List Muni) : List (Str × List Str) :=
  (dedupFirst (pre.map muniMember)).map fun k => (k, linksOf pre k)

theorem linksOf_append_one (pre : List Muni) (m : Muni) (k : Str) :
    linksOf (pre ++ [m]) k =
      linksOf pre k ++
        (if muniMember m = k then
          (if muniLink m = [] then [] else [muniLink m]) else []) := by
  unfold linksOf
  rw [List.filter_append]
  by_cases h1 : muniMember m = k
  · by_cases h2 : muniLink m = [] <;>
      simp [h1, h2, List.filter_cons, List.map_append, List.filter_append]
  · simp [h1, List.filter_cons]

theorem linksOf_nil_of_not_mem {pre : List Muni} {k : Str}
    (h : k ∉ pre.map muniMember) : linksOf pre k = [] := by
  unfold linksOf
  have hf : pre.filter (fun m => muniMember m = k) = [] := by
    rw [List.filter_eq_nil_iff]
    intro m hm hc
    have hmk : muniMember m = k := by simpa using hc
    exact h (hmk ▸ List.mem_map_of_mem muniMember hm)
  rw [hf]
  rfl

theorem senatorLinks_step (pre : List Muni) (m : Muni) :
    (if muniLink m ≠ [] then
       updateAssoc
         (if containsKey (memberLinksAcc pre) (muniMember m) then
            memberLinksAcc pre
          else memberLinksAcc pre ++ [(muniMember m, [])])
         (muniMember m) (fun ls => ls ++ [muniLink m])
     else
       (if containsKey (memberLinksAcc pre) (muniMember m) then
          memberLinksAcc pre
        else memberLinksAcc pre ++ [(muniMember m, [])])) =
      memberLinksAcc (pre ++ [m]) := by
  have hkeys : (pre ++ [m]).map muniMember =
      pre.map muniMember ++ [muniMember m] := by
    rw [List.map_append]
    rfl
  have hck : containsKey (memberLinksAcc pre) (muniMember m) = true ↔
      muniMember m ∈ pre.map muniMember :=
    (containsKey_map _ _ _).trans mem_dedupFirst
  by_cases hmem : muniMember m ∈ pre.map muniMember
  · have hckT : containsKey (memberLinksAcc pre) (muniMember m) = true :=
      hck.mpr hmem
    rw [hckT]
    simp only [if_true]
    unfold memberLinksAcc
    rw [hkeys, dedupFirst_append_singleton, if_pos hmem]
    by_cases hL : muniLink m = []
    · rw [if_neg (by simpa using hL)]
      apply List.map_congr_left
      intro k hk
      rw [linksOf_append_one]
      simp [hL]
    · rw [if_pos (by simpa using hL),
        updateAssoc_map _ _ _ _ (nodup_dedupFirst _)]
      apply List.map_congr_left
      intro k hk
      rw [linksOf_append_one]
      by_cases hkm : k = muniMember m
      · simp [hkm, hL]
      · have : ¬ muniMember m = k := fun hc => hkm hc.symm
        simp [hkm, this]
  · have hckF : containsKey (memberLinksAcc pre) (muniMember m) = false := by
      cases hc : containsKey (memberLinksAcc pre) (muniMember m) with
      | false => rfl
      | true => exact absurd (hck.mp hc) hmem
    rw [hckF]
    simp only [Bool.false_eq_true, if_false]
    have hacc1 : memberLinksAcc pre ++ [(muniMember m, [])] =
        (dedupFirst (pre.map muniMember) ++ [muniMember m]).map
          fun k => (k, linksOf pre k) := by
      unfold memberLinksAcc
      rw [List.map_append, List.map_singleton, linksOf_nil_of_not_mem hmem]
    have hnd : (dedupFirst (pre.map muniMember) ++ [muniMember m]).Nodup := by
      rw [List.nodup_append]
      refine ⟨nodup_dedupFirst _, by simp, ?_⟩
      intro x hx
      simp only [List.mem_singleton]
      intro hc
      exact hmem (mem_dedupFirst.mp (hc ▸ hx))
    have hkeys' : dedupFirst ((pre ++ [m]).map muniMember) =
        dedupFirst (pre.map muniMember) ++ [muniMember m] := by
      rw [hkeys, dedupFirst_append_singleton, if_neg hmem]
    by_cases hL : muniLink m = []
    · rw [if_neg (by simpa using hL), hacc1]
      unfold memberLinksAcc
      rw [hkeys']
      apply List.map_congr_left
      intro k hk
      rw [linksOf_append_one]
      simp [hL]
    · rw [if_pos (by simpa using hL), hacc1, updateAssoc_map _ _ _ _ hnd]
      unfold memberLinksAcc
      rw [hkeys']
      apply List.map_congr_left
      intro k hk
      rw [linksOf_append_one]
      by_cases hkm : k = muniMember m
      · simp [hkm, hL]
      · have : ¬ muniMember m = k := fun hc => hkm hc.symm
        simp [hkm, this]

theorem senatorLinksLoop_eq (ms : List Muni) : ∀ pre : List Muni,
    senatorLinksLoop ms (memberLinksAcc pre) = memberLinksAcc (pre ++ ms) := by
  induction ms with
  | nil =>
    intro pre
    simp [senatorLinksLoop]
  | cons m ms ih =>
    intro pre
    simp only [senatorLinksLoop]
    rw [senatorLinks_step pre m, ih (pre ++ [m])]
    simp [List.append_assoc]

/-! ## Claim C7 -/

/-- C7: the deduplication step returns the mapping whose keys are
exactly the distinct member names in first-encounter order, each mapped
to the most frequently occurring nonempty profile link among that
member's municipality rows (ties broken by first occurrence in the
frequency tally), or to the empty string when none of the member's rows
carries a link — so a single typo link loses to the majority link. -/
theorem c7_most_common_link (ms : List Muni) :
    get_unique_senators_with_links ms =
      (dedupFirst (ms.map muniMember)).map fun k =>
        (k, if linksOf ms k ≠ [] then mostFrequentFirst (linksOf ms k) else []) := by
  unfold get_unique_senators_with_links
  have h0 : senatorLinksLoop ms [] = memberLinksAcc ms := by
    have h := senatorLinksLoop_eq ms []
    have hnil : memberLinksAcc [] = [] := by
      unfold memberLinksAcc
      rw [dedupFirst.eq_def]
      rfl
    rw [hnil] at h
    simpa using h
  rw [h0]
  unfold memberLinksAcc
  rw [List.map_map]
  apply List.map_congr_left
  intro k hk
  simp only [Function.comp_apply]
  by_cases hL : linksOf ms k = []
  · simp [hL]
  · simp only [hL, ne_eq, not_false_eq_true, if_true]
    rw [mostCommon1_counterOf hL]

/-! ## The fetch-and-join pipeline

Network effects are modelled by a `World` giving each page's parsed
content region, and by returning alongside each result the list of
profile paths fetched, in order.  Writing the CSV is modelled by the
`Option (List Row)` result of `main`: `none` means the run aborted
before the output file was opened. -/

/-- A profile page's content region: its paragraphs and the text of its
first `h1` heading, when one exists. -/
structure ContentPage where
  paras : List Para
  h1 : Option Str

/-- What a run can observe: the index page's content region (`none`
when the content `div` is missing) and the profile page behind each
path. -/
structure World where
  indexPage : Option (List Para)
  profile : Str → Option ContentPage

/-- `SenateURL.MunicipalityListPath` of `src/legislature_urls.py`. -/
def MunicipalityListPath : Str := lit "/senate/find-your-state-senator/9392"

/-- The field extraction of `scrape_detailed_senator_info` once a
content region is in hand. -/
def extractDetails (page : ContentPage) (member : Str) : Detail :=
  (extract_email_from_content page.paras member,
   (extract_phones_from_content page.paras member).1,
   (extract_phones_from_content page.paras member).2,
   extract_committees_from_content page.paras)

/-- `scrape_detailed_senator_info` of `src/main.py` (minus the sleep and
the HTTP plumbing): all-empty on a missing content region or on the
site's `Page Not Found` heading, otherwise the extracted fields. -/
def scrape_detailed_senator_info (w : World) (path member : Str) : Detail :=
  match w.profile path with
  | none => ([], [], [], [])
  | some page =>
    match page.h1 with
    | some h =>
      if containsSub h (lit "Page Not Found") then ([], [], [], [])
      else extractDetails page member
    | none => extractDetails page member

/-- The paragraph loop of `collect_municipalities_with_senators`. -/
def collectFromParas : List Para → List Muni
  | [] => []
  | p :: rest =>
    if containsSub p.text sdLit then
      let e := extract_senator_from_string p.text
      if e.1 = [] || e.2.2.1 = [] then collectFromParas rest
      else
        let link := match p.anchors with
          | [] => ([] : Str)
          | a :: _ => a.href
        (e.1, e.2.1, e.2.2.1, e.2.2.2, link) :: collectFromParas rest
    else collectFromParas rest

/-- `collect_municipalities_with_senators` of `src/main.py`. -/
def collect_municipalities_with_senators (w : World) : List Muni :=
  match w.indexPage with
  | none => []
  | some paras => collectFromParas paras

/-- `scrape_all_unique_senators` of `src/main.py`, with its fetch log:
members without a profile link get all-empty details without a fetch. -/
def scrape_all_unique_senators (w : World) :
    List (Str × Str) → List Str × List (Str × Detail)
  | [] => ([], [])
  | (member, link) :: rest =>
    let r := scrape_all_unique_senators w rest
    if link = [] then (r.1, (member, ([], [], [], [])) :: r.2)
    else (link :: r.1,
      (member, scrape_detailed_senator_info w link member) :: r.2)

/-- `parse_senators_page` of `src/main.py` (Variant A), with its fetch
log: collect the municipalities from the index page, deduplicate, raise
on an empty roster before any profile fetch, otherwise fetch each unique
senator once and join the details back onto every municipality row. -/
def parse_senators_page (w : World) : List Str × Except Str (List Row) :=
  let municipalities := collect_municipalities_with_senators w
  let unique := get_unique_senators_with_links municipalities
  if unique = [] then
    ([MunicipalityListPath], Except.error (lit "0 results found."))
  else
    let sr := scrape_all_unique_senators w unique
    (MunicipalityListPath :: sr.1,
     Except.ok (build_senator_rows municipalities sr.2))

/-- `main` of `src/main.py`: the CSV file is opened (truncating) and
written only after `parse_senators_page` returns; a raised error
propagates and nothing is written. -/
def main (w : World) : List Str × Option (List Row) :=
  match parse_senators_page w with
  | (log, Except.error _) => (log, none)
  | (log, Except.ok senators) => (log, some senators)

/-! ## Claim C8 -/

/-- C8: in Variant A, when zero unique senators are discovered from the
index page, the run aborts with the unrecoverable `0 results found.`
error having fetched only the index page — no profile page is fetched —
and `main` writes no output file. -/
theorem c8_zero_senators_fatal (w : World)
    (h : get_unique_senators_with_links
      (collect_municipalities_with_senators w) = []) :
    parse_senators_page w =
      ([MunicipalityListPath], Except.error (lit "0 results found.")) ∧
    main w = ([MunicipalityListPath], none) := by
  have h1 : parse_senators_page w =
      ([MunicipalityListPath], Except.error (lit "0 results found.")) := by
    unfold parse_senators_page
    rw [if_pos h]
  refine ⟨h1, ?_⟩
  unfold main
  rw [h1]

/-- Witness for C8: a world whose index page has an empty content
region. -/
theorem c8_zero_senators_fatal_witness :
    parse_senators_page ⟨some [], fun _ => none⟩ =
      ([MunicipalityListPath], Except.error (lit "0 results found.")) ∧
    main ⟨some [], fun _ => none⟩ = ([MunicipalityListPath], none) :=
  c8_zero_senators_fatal ⟨some [], fun _ => none⟩ (by decide)

/-! ## Claim C9 -/

/-- Modelled from the spec: Variant B (the single-pass "district" mode
of the roster builder, spec section 4.6) is absent from `src/`, which
only contains Variant A.  Per the spec's words: for each matching index
paragraph, immediately fetch that senator's profile page (no
deduplication) and emit the joined row inline, in document order; a
paragraph matching the roster pattern but carrying no hyperlink yields a
row with empty profile fields, without fetching; zero matches yield zero
rows without raising. -/
def variantBRowsLoop (w : World) : List Muni → List Str × List Row
  | [] => ([], [])
  | m :: ms =>
    let r := variantBRowsLoop w ms
    if muniLink m = [] then
      (r.1, (m.1, m.2.1, m.2.2.1, m.2.2.2.1, [], [], [], []) :: r.2)
    else
      let det := scrape_detailed_senator_info w (muniLink m) (muniMember m)
      (muniLink m :: r.1,
       (m.1, m.2.1, m.2.2.1, m.2.2.2.1, det.1, det.2.1, det.2.2.1, det.2.2.2) :: r.2)

/-- Modelled from the spec: the Variant B entry point — fetch the index
page, then run the single-pass loop. -/
def parse_senators_page_district (w : World) : List Str × List Row :=
  let ms := collect_municipalities_with_senators w
  let r := variantBRowsLoop w ms
  (MunicipalityListPath :: r.1, r.2)

theorem variantBRowsLoop_eq (w : World) (ms : List Muni) :
    variantBRowsLoop w ms =
      ((ms.filter fun m => muniLink m ≠ []).map muniLink,
       ms.map fun m =>
         if muniLink m = [] then
           (m.1, m.2.1, m.2.2.1, m.2.2.2.1, ([] : Str), ([] : Str), ([] : Str),
             ([] : Str))
         else
           (m.1, m.2.1, m.2.2.1, m.2.2.2.1,
            (scrape_detailed_senator_info w (muniLink m) (muniMember m)).1,
            (scrape_detailed_senator_info w (muniLink m) (muniMember m)).2.1,
            (scrape_detailed_senator_info w (muniLink m) (muniMember m)).2.2.1,
            (scrape_detailed_senator_info w (muniLink m) (muniMember m)).2.2.2)) := by
  induction ms with
  | nil => rfl
  | cons m ms ih =>
    simp only [variantBRowsLoop, ih, List.filter_cons, List.map_cons]
    by_cases hL : muniLink m = []
    · simp [hL]
    · simp [hL]

/-- C9: Variant B, modelled from the spec as an alternate entry point,
is a single-pass roster builder: it produces zero rows (and fetches only
the index page) without raising when nothing matches, fetches exactly
the linked rows' profile pages in document order, and emits for every
linkless matching row a row with empty profile fields without fetching
it. -/
theorem c9_variant_b_single_pass (w : World) :
    (collect_municipalities_with_senators w = [] →
      parse_senators_page_district w = ([MunicipalityListPath], [])) ∧
    parse_senators_page_district w =
      (MunicipalityListPath ::
        (((collect_municipalities_with_senators w).filter
          fun m => muniLink m ≠ []).map muniLink),
       (collect_municipalities_with_senators w).map fun m =>
         if muniLink m = [] then
           (m.1, m.2.1, m.2.2.1, m.2.2.2.1, ([] : Str), ([] : Str), ([] : Str),
             ([] : Str))
         else
           (m.1, m.2.1, m.2.2.1, m.2.2.2.1,
            (scrape_detailed_senator_info w (muniLink m) (muniMember m)).1,
            (scrape_detailed_senator_info w (muniLink m) (muniMember m)).2.1,
            (scrape_detailed_senator_info w (muniLink m) (muniMember m)).2.2.1,
            (scrape_detailed_senator_info w (muniLink m) (muniMember m)).2.2.2)) := by
  have h2 : parse_senators_page_district w =
      (MunicipalityListPath ::
        (((collect_municipalities_with_senators w).filter
          fun m => muniLink m ≠ []).map muniLink),
       (collect_municipalities_with_senators w).map fun m =>
         if muniLink m = [] then
           (m.1, m.2.1, m.2.2.1, m.2.2.2.1, ([] : Str), ([] : Str), ([] : Str),
             ([] : Str))
         else
           (m.1, m.2.1, m.2.2.1, m.2.2.2.1,
            (scrape_detailed_senator_info w (muniLink m) (muniMember m)).1,
            (scrape_detailed_senator_info w (muniLink m) (muniMember m)).2.1,
            (scrape_detailed_senator_info w (muniLink m) (muniMember m)).2.2.1,
            (scrape_detailed_senator_info w (muniLink m) (muniMember m)).2.2.2)) := by
    unfold parse_senators_page_district
    simp only []
    rw [variantBRowsLoop_eq]
  refine ⟨?_, h2⟩
  intro h0
  rw [h2, h0]
  rfl

/-- Witness for C9 at a world with an index page containing one
non-matching paragraph: zero rows, no raise, only the index fetch. -/
theorem c9_variant_b_single_pass_witness :
    parse_senators_page_district
        ⟨some [⟨lit "Click on the first letter of your town.", [], false, false⟩],
          fun _ => none⟩ =
      ([MunicipalityListPath], []) :=
  (c9_variant_b_single_pass _).1 (by decide)

end SenatorData
